import Mathlib

/-!
Verification development for the `og-engine` chess engine (`og_engine.py`).

The Python classes `Position`, `Direction`, `Move`, `Piece` (with its variants),
`Player` and `Board` are shallowly embedded as Lean structures and executable
functions.  Machine strings for long-algebraic move text ("e2e4", "e7e8q") are
abstracted into the `MoveCode` record (origin square, destination square,
promotion flag), which carries exactly the information the engine reads from
such a string.  Python floats appear only in `Move.evaluate_complete`
(`0.3 * board.evaluate()` over integer piece scores); they are modelled as
exact rationals.  Python object identity is modelled by plain value equality:
all reasoning is done under the board invariant that distinct pieces occupy
distinct squares, which makes the two notions agree for every list operation
the engine performs (`list.remove`, membership, first-match lookup).
Operations that would raise in Python (attribute access on `None`, failed
`assert`, `list.remove` on a missing element, `pop` from an empty list)
return `none`.
-/

namespace OgEngine

/-- Player colour (`Player.Color` in the source). -/
inductive Color where
  | white
  | black
deriving DecidableEq

/-- The other colour; used to model the set subtraction in `Board.active`
and `Board.opponent`. -/
def Color.opp : Color → Color
  | .white => .black
  | .black => .white

/-- `Position`: integer column and row (`e2` is column 5, row 2). -/
structure Position where
  col : Int
  row : Int
deriving DecidableEq

/-- `Direction`: relative position diff. -/
structure Direction where
  col : Int
  row : Int
deriving DecidableEq

/-- `Position.__add__` with a `Direction` argument. -/
def Position.add (p : Position) (d : Direction) : Position :=
  ⟨p.col + d.col, p.row + d.row⟩

instance : HAdd Position Direction Position := ⟨Position.add⟩

/-- `Position.__sub__`: difference of two positions as a `Direction`. -/
def Position.sub (p q : Position) : Direction :=
  ⟨p.col - q.col, p.row - q.row⟩

/-- `Position.is_valid`. -/
def Position.isValid (p : Position) : Bool :=
  decide (1 ≤ p.row) && decide (p.row ≤ 8) && decide (1 ≤ p.col) && decide (p.col ≤ 8)

/-- Integer sign, as in `Direction.normalized`. -/
def isign (i : Int) : Int :=
  if i = 0 then 0 else if i > 0 then 1 else -1

/-- `Direction.normalized`. -/
def Direction.normalized (d : Direction) : Direction :=
  ⟨isign d.col, isign d.row⟩

/-- `Direction.mirrors`: the four sign reflections, in generator order. -/
def Direction.mirrors (d : Direction) : List Direction :=
  [d, ⟨d.col, -d.row⟩, ⟨-d.col, d.row⟩, ⟨-d.col, -d.row⟩]

/-- `Direction.switched`: swap column and row. -/
def Direction.switched (d : Direction) : Direction :=
  ⟨d.row, d.col⟩

/-- Piece variant. -/
inductive Kind where
  | king
  | queen
  | rook
  | bishop
  | knight
  | pawn
deriving DecidableEq

/-- `capture_score` class attributes. -/
def Kind.captureScore : Kind → Int
  | .king => 1000
  | .queen => 50
  | .rook => 30
  | .bishop => 20
  | .knight => 15
  | .pawn => 1

/-- `Rook.quadrant_dirs`. -/
def rookQuadrant : List Direction :=
  (List.range 8).map (fun i => ⟨0, (i : Int) + 1⟩)

/-- `Bishop.quadrant_dirs`. -/
def bishopQuadrant : List Direction :=
  (List.range 8).map (fun i => ⟨(i : Int) + 1, (i : Int) + 1⟩)

/-- `quadrant_dirs` class attributes (pawns do not use them;
`Queen.quadrant_dirs = Rook.quadrant_dirs + Bishop.quadrant_dirs`). -/
def Kind.quadrantDirs : Kind → List Direction
  | .king => [⟨0, 1⟩, ⟨1, 1⟩]
  | .rook => rookQuadrant
  | .bishop => bishopQuadrant
  | .queen => rookQuadrant ++ bishopQuadrant
  | .knight => [⟨2, 1⟩]
  | .pawn => []

/-- A piece: owning player, variant, current position, and the pawn-only
attributes `heading` and `starting_pos` (left at neutral values `0` and
`⟨0,0⟩` for the other variants, which never read them). -/
structure Piece where
  player : Color
  kind : Kind
  pos : Position
  heading : Int
  startingPos : Position
deriving DecidableEq

/-- The queen freshly constructed during promotion:
`Queen(piece.player, board, old_pos.column, old_pos.row)`. -/
def queenAt (c : Color) (p : Position) : Piece :=
  ⟨c, .queen, p, 0, ⟨0, 0⟩⟩

/-- A `Move`: moving piece, origin, destination, optional promotion record
`{from, to}`, the mover's player and the piece captured at creation time. -/
structure Move where
  piece : Piece
  oldPos : Position
  newPos : Position
  promotion : Option (Piece × Piece)
  player : Color
  captured : Option Piece
deriving DecidableEq

/-- The content of a 4/5-character long-algebraic string such as `e2e4` or
`e7e8q`: origin square, destination square, and whether a 5th (promotion)
character is present. -/
structure MoveCode where
  oldPos : Position
  newPos : Position
  promo : Bool
deriving DecidableEq

/-- `Move.notation` (together with `promotion_sign`): the long-algebraic text
of a move, as a `MoveCode`. -/
def Move.code (m : Move) : MoveCode :=
  ⟨m.oldPos, m.newPos, m.promotion.isSome⟩

/-- `Move.__eq__` on two `Move` objects: origin and destination only. -/
def Move.eqMove (a b : Move) : Bool :=
  decide (a.oldPos = b.oldPos) && decide (a.newPos = b.newPos)

/-- `Move.__eq__` against a string: full notation comparison (promotion
sign included). -/
def Move.eqCode (m : Move) (n : MoveCode) : Bool :=
  decide (m.code = n)

/-- First piece of the list standing on the given square (`None` if empty);
the search order of `Board.__getitem__` over `white.pieces + black.pieces`. -/
def findAt : List Piece → Position → Option Piece
  | [], _ => none
  | x :: xs, t => if x.pos = t then some x else findAt xs t

/-- The board core: one player's piece list each, plus the move history.
The optional sandbox replica of a primary board is kept separately in
`Board`. -/
structure BoardCore where
  white : List Piece
  black : List Piece
  history : List Move
deriving DecidableEq

/-- `Board.__getitem__`. -/
def boardAt (b : BoardCore) (t : Position) : Option Piece :=
  findAt (b.white ++ b.black) t

/-- The in-place `piece.pos = np` mutation, as a function on piece values. -/
def setPos (q : Piece) (np : Position) : Piece :=
  ⟨q.player, q.kind, np, q.heading, q.startingPos⟩

/-- Replace the first piece standing on `t` by the same piece relocated to
`np` (the in-place `piece.pos = ...` mutation). -/
def updateFirst : List Piece → Position → Position → List Piece
  | [], _, _ => []
  | x :: xs, t, np => if x.pos = t then setPos x np :: xs else x :: updateFirst xs t np

/-- Remove the first occurrence of a piece from a list (`list.remove`). -/
def eraseFirst : List Piece → Piece → List Piece
  | [], _ => []
  | x :: xs, a => if x = a then xs else x :: eraseFirst xs a

/-- `piece = self[pos]; piece.pos = np` — relocate the first piece found on
square `t` (searching white then black) to `np`; `none` when the square is
empty (Python would crash on `None.pos`). -/
def moveAt (b : BoardCore) (t np : Position) : Option BoardCore :=
  match findAt b.white t with
  | some _ => some { b with white := updateFirst b.white t np }
  | none =>
    match findAt b.black t with
    | some _ => some { b with black := updateFirst b.black t np }
    | none => none

/-- `Piece.leave`: remove the piece from its player's active list; `none`
when absent (Python `list.remove` would raise). -/
def leave (b : BoardCore) (c : Piece) : Option BoardCore :=
  match c.player with
  | .white => if c ∈ b.white then some { b with white := eraseFirst b.white c } else none
  | .black => if c ∈ b.black then some { b with black := eraseFirst b.black c } else none

/-- `Piece.join`: append the piece to its player's active list. -/
def join (b : BoardCore) (c : Piece) : BoardCore :=
  match c.player with
  | .white => { b with white := b.white ++ [c] }
  | .black => { b with black := b.black ++ [c] }

/-- Walk of `Piece.straight_line_to`, one normalized step at a time.  The
fuel bound 20 is never reached for the calls the engine makes (the walk
starts next to an on-board square and each step moves at least one
coordinate by one, so it reaches the destination or leaves the board in
at most 16 steps); on exhaustion we return `true`, matching the loop's
fall-through result. -/
def slWalk (b : BoardCore) (endPos : Position) (d : Direction) : Nat → Position → Bool
  | 0, _ => true
  | n + 1, pos =>
    if pos = endPos then true
    else if ¬ pos.isValid then true
    else if (boardAt b pos).isSome then false
    else slWalk b endPos d n (pos + d)

/-- `Piece.straight_line_to`. -/
def straightLineTo (b : BoardCore) (startPos endPos : Position) : Bool :=
  let d := (Position.sub endPos startPos).normalized
  slWalk b endPos d 20 (startPos + d)

/-- `Piece.check_move_to` base rule: on board, and not onto a friendly
piece. -/
def baseCheck (b : BoardCore) (p : Piece) (np : Position) : Bool :=
  if ¬ np.isValid then false
  else
    match boardAt b np with
    | some c => decide (c.player ≠ p.player)
    | none => true

/-- `check_move_to` with the per-variant overrides (`StraightLineMixin`,
`Pawn.check_move_to`). -/
def checkMoveTo (b : BoardCore) (p : Piece) (np : Position) : Bool :=
  match p.kind with
  | .pawn =>
    if np.col = p.pos.col ∧ (boardAt b np).isSome then false else baseCheck b p np
  | .rook => baseCheck b p np && straightLineTo b p.pos np
  | .bishop => baseCheck b p np && straightLineTo b p.pos np
  | .queen => baseCheck b p np && straightLineTo b p.pos np
  | .king => baseCheck b p np
  | .knight => baseCheck b p np

/-- Remove duplicate directions, keeping first occurrences (the `set(dirs)`
in `Piece.all_dirs`; a set is only consumed by order-insensitive sums and
membership tests). -/
def dedupDirs (seen : List Direction) : List Direction → List Direction
  | [] => []
  | d :: ds => if d ∈ seen then dedupDirs seen ds else d :: dedupDirs (d :: seen) ds

/-- `Piece.all_dirs` for the non-pawn variants: mirrors and switched mirrors
of each quadrant direction, deduplicated. -/
def expandedDirs (k : Kind) : List Direction :=
  dedupDirs [] ((k.quadrantDirs.map (fun d => d.mirrors ++ d.switched.mirrors)).flatten)

/-- `Pawn.all_dirs`: forward always; each diagonal only when an enemy piece
stands there; the double step only from the starting square with an empty
square ahead. -/
def pawnDirs (b : BoardCore) (p : Piece) : List Direction :=
  let fwd : Direction := ⟨0, p.heading⟩
  [fwd]
    ++ ([(⟨1, p.heading⟩ : Direction), ⟨-1, p.heading⟩].filter (fun d =>
          match boardAt b (p.pos + d) with
          | some c => decide (c.player ≠ p.player)
          | none => false))
    ++ (if p.pos = p.startingPos ∧ boardAt b (p.pos + fwd) = none
        then [(⟨0, 2 * p.heading⟩ : Direction)] else [])

/-- `all_dirs` dispatch. -/
def allDirs (b : BoardCore) (p : Piece) : List Direction :=
  match p.kind with
  | .pawn => pawnDirs b p
  | k => expandedDirs k

/-- `Move.__init__` from `piece` and `new_pos`: automatic promotion when a
pawn reaches row 1 or 8. -/
def mkMoveObj (b : BoardCore) (p : Piece) (np : Position) : Move :=
  { piece := p
    oldPos := p.pos
    newPos := np
    promotion :=
      if p.kind = .pawn ∧ (np.row = 1 ∨ np.row = 8)
      then some (p, queenAt p.player p.pos) else none
    player := p.player
    captured := boardAt b np }

/-- `Piece.possible_moves`. -/
def possibleMoves (b : BoardCore) (p : Piece) : List Move :=
  (allDirs b p).filterMap (fun d =>
    let np := p.pos + d
    if checkMoveTo b p np then some (mkMoveObj b p np) else none)

/-- `Move.__init__` from `board` and a long-algebraic string: the moving
piece is looked up at the origin square (`none` when the square is empty —
Python dereferences `None`); a 5th character always promotes to a queen. -/
def fromCode (b : BoardCore) (n : MoveCode) : Option Move :=
  match boardAt b n.oldPos with
  | none => none
  | some p =>
    some
      { piece := p
        oldPos := n.oldPos
        newPos := n.newPos
        promotion := if n.promo then some (p, queenAt p.player n.oldPos) else none
        player := p.player
        captured := boardAt b n.newPos }

/-- The core state change of `Board.make_move` (everything except the
sandbox assertion and mirroring): captured piece leaves, promotion swaps
pawn for queen, the piece at the origin is relocated, the move is appended
to the history. -/
def makeMoveCore (b : BoardCore) (m : Move) : Option BoardCore :=
  match (match m.captured with | some c => leave b c | none => some b) with
  | none => none
  | some b1 =>
    match (match m.promotion with
           | some pr =>
             match leave b1 pr.1 with
             | none => none
             | some bx => some (join bx pr.2)
           | none => some b1) with
    | none => none
    | some b2 =>
      match moveAt b2 m.oldPos m.newPos with
      | none => none
      | some b3 => some { b3 with history := b3.history ++ [m] }

/-- The core state change of `Board.undo_move` (everything except the
sandbox mirroring): pop the last move, relocate the piece found at the
destination back, revert a promotion, re-join a captured piece. -/
def undoMoveCore (b : BoardCore) : Option BoardCore :=
  match b.history.getLast? with
  | none => none
  | some m =>
    match moveAt { b with history := b.history.dropLast } m.newPos m.oldPos with
    | none => none
    | some b1 =>
      match (match m.promotion with
             | some pr =>
               match leave b1 pr.2 with
               | none => none
               | some bx => some (join bx pr.1)
             | none => some b1) with
      | none => none
      | some b2 => some (match m.captured with | some c => join b2 c | none => b2)

/-- `Board.active`, reduced to a colour: white for an empty history,
otherwise the opposite of the last move's player. -/
def activeColor (b : BoardCore) : Color :=
  match b.history.getLast? with
  | none => .white
  | some m => m.player.opp

/-- The active player's piece list. -/
def activeList (b : BoardCore) : List Piece :=
  match activeColor b with
  | .white => b.white
  | .black => b.black

/-- `Board.opponent`'s piece list. -/
def oppList (b : BoardCore) : List Piece :=
  match activeColor b with
  | .white => b.black
  | .black => b.white

/-- `Move.evaluate`: capture score of the piece currently standing on the
destination square of the move's board. -/
def evalImmediate (b : BoardCore) (m : Move) : Int :=
  match boardAt b m.newPos with
  | some c => c.kind.captureScore
  | none => 0

/-- `Piece.evaluate`: sum of `move.evaluate()` over the piece's possible
moves. -/
def pieceEval (b : BoardCore) (p : Piece) : Int :=
  ((possibleMoves b p).map (fun m => evalImmediate b m)).sum

/-- `Board.evaluate`: active player's sum minus twice the opponent's. -/
def BoardCore.evaluate (b : BoardCore) : Int :=
  ((activeList b).map (pieceEval b)).sum - 2 * ((oppList b).map (pieceEval b)).sum

/-- A primary board: its own state plus the sandbox replica (a `Board`
constructed with `sandbox=False` always carries one). -/
structure Board where
  main : BoardCore
  sandbox : BoardCore
deriving DecidableEq

/-- The assertions at the top of `Board.make_move`: equal history lengths,
and (when non-empty) equal last moves under `Move.__eq__`. -/
def checkSync (b : Board) : Bool :=
  decide (b.main.history.length = b.sandbox.history.length) &&
    (match b.main.history.getLast?, b.sandbox.history.getLast? with
     | some x, some y => Move.eqMove x y
     | _, _ => true)

/-- `Board.make_move` on a primary board, called with a long-algebraic
string: assertions, string-to-`Move` resolution, the core state change,
then replay of `move.notation` into the sandbox. -/
def Board.makeMoveN (b : Board) (n : MoveCode) : Option Board :=
  if checkSync b then
    match fromCode b.main n with
    | none => none
    | some m =>
      match makeMoveCore b.main m with
      | none => none
      | some main1 =>
        match fromCode b.sandbox m.code with
        | none => none
        | some m2 =>
          match makeMoveCore b.sandbox m2 with
          | none => none
          | some sand1 => some ⟨main1, sand1⟩
  else none

/-- `Board.make_move` on a primary board, called with a `Move` object whose
pieces belong to that same board (as `bestmove` does). -/
def Board.makeMoveObj (b : Board) (m : Move) : Option Board :=
  if checkSync b then
    match makeMoveCore b.main m with
    | none => none
    | some main1 =>
      match fromCode b.sandbox m.code with
      | none => none
      | some m2 =>
        match makeMoveCore b.sandbox m2 with
        | none => none
        | some sand1 => some ⟨main1, sand1⟩
  else none

/-- `Board.undo_move` on a primary board: core undo, mirrored into the
sandbox. -/
def Board.undoMove (b : Board) : Option Board :=
  match undoMoveCore b.main with
  | none => none
  | some main1 =>
    match undoMoveCore b.sandbox with
    | none => none
    | some sand1 => some ⟨main1, sand1⟩

/-- The standard back rank of one colour (`Player.__init__` piece order:
king, queen, bishops, knights, rooks). -/
def backRank (c : Color) (row : Int) : List Piece :=
  [⟨c, .king, ⟨5, row⟩, 0, ⟨0, 0⟩⟩,
   ⟨c, .queen, ⟨4, row⟩, 0, ⟨0, 0⟩⟩,
   ⟨c, .bishop, ⟨3, row⟩, 0, ⟨0, 0⟩⟩,
   ⟨c, .bishop, ⟨6, row⟩, 0, ⟨0, 0⟩⟩,
   ⟨c, .knight, ⟨2, row⟩, 0, ⟨0, 0⟩⟩,
   ⟨c, .knight, ⟨7, row⟩, 0, ⟨0, 0⟩⟩,
   ⟨c, .rook, ⟨1, row⟩, 0, ⟨0, 0⟩⟩,
   ⟨c, .rook, ⟨8, row⟩, 0, ⟨0, 0⟩⟩]

/-- The pawn rank of one colour (`starting_pos` is the construction
square, `heading` the pawn's forward row direction). -/
def pawnRank (c : Color) (row heading : Int) : List Piece :=
  (List.range 8).map (fun i => ⟨c, .pawn, ⟨(i : Int) + 1, row⟩, heading, ⟨(i : Int) + 1, row⟩⟩)

/-- One player's initial pieces. -/
def initialPieces (c : Color) : List Piece :=
  match c with
  | .white => backRank .white 1 ++ pawnRank .white 2 1
  | .black => backRank .black 8 ++ pawnRank .black 7 (-1)

/-- The initial board core. -/
def initialCore : BoardCore :=
  ⟨initialPieces .white, initialPieces .black, []⟩

/-- `Board()` — a fresh primary board with its fresh sandbox. -/
def Board.initial : Board :=
  ⟨initialCore, initialCore⟩

/-- Replay a list of long-algebraic moves through `Board.make_move`
(the loop at the end of `Board.sync_moves`). -/
def applyAllN (b : Board) : List MoveCode → Option Board
  | [] => some b
  | n :: ns =>
    match Board.makeMoveN b n with
    | none => none
    | some b1 => applyAllN b1 ns

/-- The prefix comparison loop of `Board.sync_moves`: each local history
move against the corresponding external string, under `Move.__eq__` with a
string (full notation, promotion sign included). -/
def histAgrees (hist : List Move) (moves : List MoveCode) : Bool :=
  (hist.zip moves).all (fun hn => Move.eqCode hn.1 hn.2)

/-- `Board.sync_moves`: recreate from scratch when the external list is no
longer than the history or disagrees with it, then apply the remaining
suffix. -/
def Board.syncMoves (b : Board) (moves : List MoveCode) : Option Board :=
  let recreate :=
    decide (moves.length ≤ b.main.history.length) || !histAgrees b.main.history moves
  let b1 := if recreate then Board.initial else b
  applyAllN b1 (moves.drop b1.main.history.length)

/-- The board mutation performed by `Move.evaluate_complete` on a primary
board's move: `sandbox.make_move(move_object)` followed by
`sandbox.undo_move()`.  Because the move object's `captured` piece and
promotion record reference pieces of the *primary* board, their
`leave`/`join` calls mutate the primary player lists, while the relocation
and the history append/pop happen on the sandbox.  Returns the resulting
(primary, sandbox) pair. -/
def evalCompleteStep (main sandbox : BoardCore) (m : Move) : Option (BoardCore × BoardCore) :=
  match (match m.captured with | some c => leave main c | none => some main) with
  | none => none
  | some mainA =>
    match (match m.promotion with
           | some pr =>
             match leave mainA pr.1 with
             | none => none
             | some bx => some (join bx pr.2)
           | none => some mainA) with
    | none => none
    | some mainB =>
      match moveAt sandbox m.oldPos m.newPos with
      | none => none
      | some sandA =>
        let sandB : BoardCore := { sandA with history := sandA.history ++ [m] }
        match sandB.history.getLast? with
        | none => none
        | some mu =>
          let sandC : BoardCore := { sandB with history := sandB.history.dropLast }
          match moveAt sandC mu.newPos mu.oldPos with
          | none => none
          | some sandD =>
            match (match mu.promotion with
                   | some pr =>
                     match leave mainB pr.2 with
                     | none => none
                     | some bx => some (join bx pr.1)
                   | none => some mainB) with
            | none => none
            | some mainC =>
              some (match mu.captured with | some c => join mainC c | none => mainC, sandD)

/-- `Move.evaluate_complete` for a move of the primary board: the immediate
capture score (read off the primary board before any mutation) plus `0.3`
times the sandbox's `evaluate()` after the sandbox move has been made and
undone. -/
def evaluateComplete (main sandbox : BoardCore) (m : Move) : Option ℚ :=
  match evalCompleteStep main sandbox m with
  | none => none
  | some (_, sand1) => some ((evalImmediate main m : ℚ) + 3 / 10 * (sand1.evaluate : ℚ))

/-- `set(...)` over sampled moves: Python dedups two moves only when their
hashes collide (`hash(notation)`) and they compare equal, which happens
exactly when their notations coincide. -/
def dedupMoves (seen : List MoveCode) : List Move → List Move
  | [] => []
  | m :: ms => if m.code ∈ seen then dedupMoves seen ms else m :: dedupMoves (m.code :: seen) ms

/-- Evaluate each candidate in order through `evaluate_complete`, threading
the (transiently mutated) primary and sandbox states, and collect the
scores. -/
def foldEval (main sandbox : BoardCore) :
    List Move → Option (BoardCore × BoardCore × List (Move × ℚ))
  | [] => some (main, sandbox, [])
  | m :: ms =>
    match evalCompleteStep main sandbox m with
    | none => none
    | some (mainA, sandA) =>
      let sc : ℚ := (evalImmediate main m : ℚ) + 3 / 10 * (sandA.evaluate : ℚ)
      match foldEval mainA sandA ms with
      | none => none
      | some (mainB, sandB, rest) => some (mainB, sandB, (m, sc) :: rest)

/-- `sorted(..., key=evaluate_complete)[-1]`: a maximum-score candidate.
(Among equal scores Python's choice depends on unspecified set iteration
order; this model keeps the last maximal one.) -/
def pickMax (best : Move) (bs : ℚ) : List (Move × ℚ) → Move
  | [] => best
  | (m, s) :: rest => if bs ≤ s then pickMax m s rest else pickMax best bs rest

/-- `Board.bestmove`, with the 200 random samples supplied as an explicit
list: deduplicate, score every unique candidate via `evaluate_complete`,
execute the best through `make_move`, return it. -/
def bestmove (b : Board) (sample : List Move) : Option (Board × Move) :=
  match dedupMoves [] sample with
  | [] => none
  | u :: us =>
    match foldEval b.main b.sandbox (u :: us) with
    | none => none
    | some (mainB, sandB, scored) =>
      match scored with
      | [] => none
      | (m0, s0) :: rest =>
        let chosen := pickMax m0 s0 rest
        match Board.makeMoveObj ⟨mainB, sandB⟩ chosen with
        | none => none
        | some b1 => some (b1, chosen)

/-- SAN piece letters (`[KQRBNP]`). -/
inductive SanLetter where
  | K
  | Q
  | R
  | B
  | N
  | P
deriving DecidableEq

/-- `m['piece'] in p.pgn_signs`: each letter matches its variant; a missing
letter matches only pawns (whose `pgn_signs` contain `None`). -/
def matchesLetter (letter : Option SanLetter) (k : Kind) : Bool :=
  match letter, k with
  | none, .pawn => true
  | some .K, .king => true
  | some .Q, .queen => true
  | some .R, .rook => true
  | some .B, .bishop => true
  | some .N, .knight => true
  | some .P, .pawn => true
  | _, _ => false

/-- A SAN token accepted by the non-castling alternative of `pgn_re`:
optional piece letter, optional origin file/rank hints, mandatory
destination (the capture, promotion and check suffixes are accepted by the
grammar but never read by the resolution code). -/
structure SanTok where
  letter : Option SanLetter
  oldCol : Option Int
  oldRow : Option Int
  newPos : Position
deriving DecidableEq

/-- The filter pipeline of `Move.__init__` from a PGN token. -/
def sanCandidates (b : BoardCore) (tok : SanTok) : List Piece :=
  ((((activeList b).filter (fun p => matchesLetter tok.letter p.kind)).filter
      (fun p => match tok.oldCol with | some c => decide (p.pos.col = c) | none => true)).filter
      (fun p => match tok.oldRow with | some r => decide (p.pos.row = r) | none => true)).filter
      (fun p => (possibleMoves b p).any (fun m2 => Move.eqMove m2 (mkMoveObj b p tok.newPos)))

/-- `Move.__init__` from `board` and a PGN token: the `assert
len(pieces) == 1` makes any other candidate count fatal (`none`); on
success the move is built from the single candidate (the PGN path never
sets a promotion, marked TODO in the source). -/
def fromSan (b : BoardCore) (tok : SanTok) : Option Move :=
  match sanCandidates b tok with
  | [p] =>
    some
      { piece := p
        oldPos := p.pos
        newPos := tok.newPos
        promotion := none
        player := p.player
        captured := boardAt b tok.newPos }
  | _ => none

/-- No two pieces of the list share a square. -/
def distinctPos : List Piece → Bool
  | [] => true
  | x :: xs => xs.all (fun y => decide (y.pos ≠ x.pos)) && distinctPos xs

/-- Each piece sits in its own player's list. -/
def ownersOK (b : BoardCore) : Bool :=
  b.white.all (fun p => decide (p.player = .white)) &&
    b.black.all (fun p => decide (p.player = .black))

/-- Board well-formedness: one piece per square, correctly owned lists. -/
def WF (b : BoardCore) : Bool :=
  distinctPos (b.white ++ b.black) && ownersOK b

/-- The data `Move.__eq__` compares on two `Move` objects (origin and
destination), used for the sandbox assertions. -/
def moveKey (m : Move) : Position × Position :=
  (m.oldPos, m.newPos)

/-- Pointwise synchronization of the two histories under `Move.__eq__`:
the invariant maintained between a primary board and its sandbox. -/
def HistSync (b : Board) : Prop :=
  b.main.history.map moveKey = b.sandbox.history.map moveKey

/-- A history whose moves alternate colours starting with white (the only
histories that arise when the two sides take turns). -/
def Alternating (h : List Move) : Prop :=
  ∀ i (hi : i < h.length),
    (h.get ⟨i, hi⟩).player = (if i % 2 = 0 then Color.white else Color.black)

/-- A board whose state is reproduced by replaying its own history's
notations from the initial position (true of boards driven through
`make_move` with notation strings, as the UCI loop does). -/
def Reconstructible (b : Board) : Prop :=
  applyAllN Board.initial (b.main.history.map Move.code) = some b

/-! ### Concrete inputs used in witnesses and counterexamples -/

/-- The long-algebraic string `e2e3`. -/
def nE2E3 : MoveCode := ⟨⟨5, 2⟩, ⟨5, 3⟩, false⟩

/-- The long-algebraic string `e2e4`. -/
def nE2E4 : MoveCode := ⟨⟨5, 2⟩, ⟨5, 4⟩, false⟩

/-- The long-algebraic string `d2d3`. -/
def nD2D3 : MoveCode := ⟨⟨4, 2⟩, ⟨4, 3⟩, false⟩

/-- The long-algebraic string `d2d4`. -/
def nD2D4 : MoveCode := ⟨⟨4, 2⟩, ⟨4, 4⟩, false⟩

/-- The white pawn on e2 of the initial position. -/
def pawnE2 : Piece := ⟨.white, .pawn, ⟨5, 2⟩, 1, ⟨5, 2⟩⟩

/-- The move object `Move(pawn on e2, e3)` on the initial board. -/
def moveE2E3 : Move := mkMoveObj initialCore pawnE2 ⟨5, 3⟩

/-- The board after `make_move('d2d4')` from the start. -/
def boardD2D4 : Board := (Board.initial.makeMoveN nD2D4).getD Board.initial

/-- The board after white has played `e2e3` and then (illegally, but the
engine does not object) white again `d2d3`. -/
def boardTwoWhite : Board :=
  ((Board.initial.makeMoveN nE2E3).bind (fun x => Board.makeMoveN x nD2D3)).getD Board.initial

/-- A two-piece board: white knight on h3, black pawn on g5 (as arises
after `g7g5` against a knight already on h3). -/
def knightT : Piece := ⟨.white, .knight, ⟨8, 3⟩, 0, ⟨0, 0⟩⟩

/-- The black pawn on g5 of the two-piece board. -/
def pawnT : Piece := ⟨.black, .pawn, ⟨7, 5⟩, -1, ⟨7, 7⟩⟩

/-- The two-piece board core. -/
def tinyCore : BoardCore := ⟨[knightT], [pawnT], []⟩

/-- The capturing move `Move(knight on h3, g5)` on the two-piece board. -/
def tinyMove : Move := mkMoveObj tinyCore knightT ⟨7, 5⟩

/-- `Move(board, notation='e7e8')` on the initial board — no promotion
record (only a 5-character string creates one). -/
def moveE7E8 : Move := (fromCode initialCore ⟨⟨5, 7⟩, ⟨5, 8⟩, false⟩).getD tinyMove

/-- `Move(board, notation='e7e8q')` on the initial board — with a
promotion record. -/
def moveE7E8q : Move := (fromCode initialCore ⟨⟨5, 7⟩, ⟨5, 8⟩, true⟩).getD tinyMove

/-- `evaluate_complete` as the specification words it (not as the code
computes it): the capture score of the destination square plus `0.3` times
the static evaluation of the position reached by *applying* the move on the
sandbox replica. -/
def specEvaluateComplete (main sandbox : BoardCore) (m : Move) : Option ℚ :=
  match makeMoveCore sandbox m with
  | none => none
  | some s1 => some ((evalImmediate main m : ℚ) + 3 / 10 * (s1.evaluate : ℚ))

/-- The non-capturing move `Move(knight on h3, f4)` on the two-piece board. -/
def tinyMoveNC : Move := mkMoveObj tinyCore knightT ⟨6, 4⟩

/-- The PGN token `e3` (no piece letter, no origin hints). -/
def tokE3 : SanTok := ⟨none, none, none, ⟨5, 3⟩⟩

/-- The long-algebraic string `e7e5`. -/
def nE7E5 : MoveCode := ⟨⟨5, 7⟩, ⟨5, 5⟩, false⟩

/-- The black pawn on e7 of the initial position. -/
def pawnE7 : Piece := ⟨.black, .pawn, ⟨5, 7⟩, -1, ⟨5, 7⟩⟩

/-- The board produced by `sync_moves(['e2e4'])` issued after a local
`d2d4`. -/
def boardSyncE2E4 : Board := (Board.syncMoves boardD2D4 [nE2E4]).getD Board.initial

/-! ### Helper lemmas about the list primitives -/

theorem findAt_eq_none {l : List Piece} {t : Position} :
    findAt l t = none ↔ ∀ x ∈ l, x.pos ≠ t := by
  induction l with
  | nil => simp [findAt]
  | cons x xs ih =>
    by_cases hx : x.pos = t
    · simp [findAt, hx]
    · simp [findAt, hx, ih]

theorem findAt_mem {l : List Piece} {t : Position} {q : Piece}
    (h : findAt l t = some q) : q ∈ l ∧ q.pos = t := by
  induction l with
  | nil => simp [findAt] at h
  | cons x xs ih =>
    by_cases hx : x.pos = t
    · simp [findAt, hx] at h
      exact ⟨by simp [← h], by rw [← h]; exact hx⟩
    · simp [findAt, hx] at h
      rcases ih h with ⟨h1, h2⟩
      exact ⟨List.mem_cons_of_mem _ h1, h2⟩

theorem findAt_append {l₁ l₂ : List Piece} {t : Position} :
    findAt (l₁ ++ l₂) t =
      (match findAt l₁ t with
       | some q => some q
       | none => findAt l₂ t) := by
  induction l₁ with
  | nil => simp [findAt]
  | cons x xs ih =>
    by_cases hx : x.pos = t
    · simp [findAt, hx]
    · simpa [findAt, hx] using ih

theorem distinctPos_all {x : Piece} {xs : List Piece}
    (h : distinctPos (x :: xs) = true) :
    (∀ y ∈ xs, y.pos ≠ x.pos) ∧ distinctPos xs = true := by
  simp only [distinctPos, Bool.and_eq_true, List.all_eq_true, decide_eq_true_eq] at h
  exact ⟨h.1, h.2⟩

theorem distinctPos_same_pos {l : List Piece} (h : distinctPos l = true) :
    ∀ x ∈ l, ∀ y ∈ l, x.pos = y.pos → x = y := by
  induction l with
  | nil => simp
  | cons z zs ih =>
    rcases distinctPos_all h with ⟨hz, hzs⟩
    intro x hx y hy hxy
    rcases List.mem_cons.mp hx with hx1 | hx2 <;> rcases List.mem_cons.mp hy with hy1 | hy2
    · rw [hx1, hy1]
    · exact absurd (hx1 ▸ hxy).symm (hz y hy2)
    · exact absurd (hy1 ▸ hxy) (hz x hx2)
    · exact ih hzs x hx2 y hy2 hxy

theorem distinctPos_append {l₁ l₂ : List Piece}
    (h : distinctPos (l₁ ++ l₂) = true) :
    distinctPos l₁ = true ∧ distinctPos l₂ = true := by
  induction l₁ with
  | nil => exact ⟨rfl, h⟩
  | cons x xs ih =>
    rcases distinctPos_all h with ⟨hall, htail⟩
    rcases ih htail with ⟨h1, h2⟩
    refine ⟨?_, h2⟩
    simp only [distinctPos, Bool.and_eq_true, List.all_eq_true, decide_eq_true_eq]
    exact ⟨fun y hy => hall y (List.mem_append_left _ hy), h1⟩

theorem distinctPos_nodup {l : List Piece} (h : distinctPos l = true) : l.Nodup := by
  induction l with
  | nil => simp
  | cons x xs ih =>
    rcases distinctPos_all h with ⟨hall, htail⟩
    refine List.nodup_cons.mpr ⟨fun hx => ?_, ih htail⟩
    exact hall x hx rfl

theorem findAt_of_mem {l : List Piece} {q : Piece} {t : Position}
    (hd : distinctPos l = true) (hq : q ∈ l) (ht : q.pos = t) :
    findAt l t = some q := by
  induction l with
  | nil => simp at hq
  | cons x xs ih =>
    rcases distinctPos_all hd with ⟨hall, htail⟩
    rcases List.mem_cons.mp hq with h1 | h2
    · subst h1
      simp [findAt, ht]
    · have hx : x.pos ≠ t := by
        intro hx
        exact hall q h2 (ht.trans hx.symm)
      simp [findAt, hx, ih htail h2]

theorem findAt_decomp {l : List Piece} {t : Position} {q : Piece}
    (h : findAt l t = some q) :
    ∃ l₁ l₂, l = l₁ ++ q :: l₂ ∧ ∀ x ∈ l₁, x.pos ≠ t := by
  induction l with
  | nil => simp [findAt] at h
  | cons x xs ih =>
    by_cases hx : x.pos = t
    · simp [findAt, hx] at h
      exact ⟨[], xs, by simp [h], by simp⟩
    · simp [findAt, hx] at h
      rcases ih h with ⟨l₁, l₂, hl, hl₁⟩
      refine ⟨x :: l₁, l₂, by simp [hl], ?_⟩
      intro y hy
      rcases List.mem_cons.mp hy with h1 | h2
      · rw [h1]; exact hx
      · exact hl₁ y h2

theorem updateFirst_decomp {l₁ l₂ : List Piece} {q : Piece} {t np : Position}
    (h₁ : ∀ x ∈ l₁, x.pos ≠ t) (hq : q.pos = t) :
    updateFirst (l₁ ++ q :: l₂) t np = l₁ ++ setPos q np :: l₂ := by
  induction l₁ with
  | nil => simp [updateFirst, hq]
  | cons x xs ih =>
    have hx : x.pos ≠ t := h₁ x (List.mem_cons_self x xs)
    have ihh := ih (fun y hy => h₁ y (List.mem_cons_of_mem _ hy))
    simp [updateFirst, hx, ihh]

theorem updateFirst_of_none {l : List Piece} {t np : Position}
    (h : ∀ x ∈ l, x.pos ≠ t) : updateFirst l t np = l := by
  induction l with
  | nil => rfl
  | cons x xs ih =>
    have hx : x.pos ≠ t := h x (List.mem_cons_self x xs)
    simp only [updateFirst, if_neg hx]
    rw [ih (fun y hy => h y (List.mem_cons_of_mem _ hy))]

theorem eraseFirst_decomp {l₁ l₂ : List Piece} {q : Piece}
    (h : q ∉ l₁) : eraseFirst (l₁ ++ q :: l₂) q = l₁ ++ l₂ := by
  induction l₁ with
  | nil => simp [eraseFirst]
  | cons x xs ih =>
    have hx : x ≠ q := fun he => h (he ▸ List.mem_cons_self x xs)
    have ihh := ih (fun he => h (List.mem_cons_of_mem _ he))
    simp [eraseFirst, hx, ihh]

theorem eraseFirst_subset {l : List Piece} {a x : Piece}
    (h : x ∈ eraseFirst l a) : x ∈ l := by
  induction l with
  | nil => simp [eraseFirst] at h
  | cons y ys ih =>
    by_cases hy : y = a
    · simp [eraseFirst, hy] at h
      exact List.mem_cons_of_mem _ h
    · simp only [eraseFirst, if_neg hy, List.mem_cons] at h
      rcases h with h1 | h2
      · exact h1 ▸ List.mem_cons_self y ys
      · exact List.mem_cons_of_mem _ (ih h2)

theorem findAt_middle {l₁ l₂ : List Piece} {q : Piece} {t : Position}
    (h₁ : ∀ x ∈ l₁, x.pos ≠ t) (hq : q.pos = t) :
    findAt (l₁ ++ q :: l₂) t = some q := by
  induction l₁ with
  | nil => simp [findAt, hq]
  | cons x xs ih =>
    have hx : x.pos ≠ t := h₁ x (List.mem_cons_self x xs)
    simp only [List.cons_append, findAt, if_neg hx]
    exact ih (fun y hy => h₁ y (List.mem_cons_of_mem _ hy))

theorem nodup_middle_split {l₁ l₂ : List Piece} {q : Piece}
    (h : (l₁ ++ q :: l₂).Nodup) : q ∉ l₁ ∧ q ∉ l₂ := by
  induction l₁ with
  | nil =>
    rcases List.nodup_cons.mp h with ⟨h1, _⟩
    exact ⟨by simp, h1⟩
  | cons x xs ih =>
    rcases List.nodup_cons.mp h with ⟨h1, h2⟩
    rcases ih h2 with ⟨ha, hb⟩
    refine ⟨fun hx => ?_, hb⟩
    rcases List.mem_cons.mp hx with he | he
    · exact h1 (he ▸ (by simp : q ∈ xs ++ q :: l₂))
    · exact ha he

theorem eraseFirst_nodup_not_mem {l : List Piece} {a : Piece}
    (h : l.Nodup) : a ∉ eraseFirst l a := by
  induction l with
  | nil => simp [eraseFirst]
  | cons x xs ih =>
    rcases List.nodup_cons.mp h with ⟨h1, h2⟩
    by_cases hx : x = a
    · simp only [eraseFirst, if_pos hx]
      exact fun ha => h1 (hx ▸ ha)
    · simp only [eraseFirst, if_neg hx]
      intro ha
      rcases List.mem_cons.mp ha with he | he
      · exact hx he.symm
      · exact ih h2 he

theorem eraseFirst_append_self_perm {l : List Piece} {a : Piece}
    (h : a ∈ l) : List.Perm (eraseFirst l a ++ [a]) l := by
  induction l with
  | nil => simp at h
  | cons x xs ih =>
    by_cases hx : x = a
    · rw [hx]
      simp only [eraseFirst, if_pos rfl]
      exact List.perm_append_singleton a xs
    · have ha : a ∈ xs := by
        rcases List.mem_cons.mp h with h1 | h2
        · exact absurd h1.symm hx
        · exact h2
      simp only [eraseFirst, if_neg hx, List.cons_append]
      exact (ih ha).cons x

/-! ### Facts extracted from well-formedness and legality -/

theorem WF_parts {b : BoardCore} (h : WF b = true) :
    distinctPos (b.white ++ b.black) = true ∧
      (∀ x ∈ b.white, x.player = .white) ∧ (∀ x ∈ b.black, x.player = .black) := by
  simp only [WF, ownersOK, Bool.and_eq_true, List.all_eq_true, decide_eq_true_eq] at h
  exact ⟨h.1, h.2.1, h.2.2⟩

theorem Color.eq_black_of_ne_white {c : Color} (h : c ≠ .white) : c = .black := by
  cases c
  · exact absurd rfl h
  · rfl

theorem boardAt_of_mem {b : BoardCore} {p : Piece} (hwf : WF b = true)
    (hp : p ∈ b.white ++ b.black) : boardAt b p.pos = some p :=
  findAt_of_mem (WF_parts hwf).1 hp rfl

theorem boardAt_mem {b : BoardCore} {t : Position} {q : Piece}
    (h : boardAt b t = some q) : q ∈ b.white ++ b.black ∧ q.pos = t :=
  findAt_mem h

theorem baseCheck_true {b : BoardCore} {p : Piece} {np : Position}
    (h : baseCheck b p np = true) :
    np.isValid = true ∧ ∀ c, boardAt b np = some c → c.player ≠ p.player := by
  rw [baseCheck] at h
  split at h
  · simp at h
  · next hv =>
    refine ⟨by simpa using hv, fun c hc => ?_⟩
    rw [hc] at h
    simpa using h

theorem checkMoveTo_true {b : BoardCore} {p : Piece} {np : Position}
    (h : checkMoveTo b p np = true) :
    np.isValid = true ∧ ∀ c, boardAt b np = some c → c.player ≠ p.player := by
  cases hk : p.kind <;> simp only [checkMoveTo, hk, Bool.and_eq_true] at h
  · exact baseCheck_true h
  · exact baseCheck_true h.1
  · exact baseCheck_true h.1
  · exact baseCheck_true h.1
  · exact baseCheck_true h
  · split at h
    · simp at h
    · exact baseCheck_true h

theorem mem_possibleMoves {b : BoardCore} {p : Piece} {m : Move} :
    m ∈ possibleMoves b p ↔
      ∃ d ∈ allDirs b p,
        checkMoveTo b p (p.pos + d) = true ∧ m = mkMoveObj b p (p.pos + d) := by
  simp only [possibleMoves, List.mem_filterMap]
  constructor
  · rintro ⟨d, hd, hf⟩
    refine ⟨d, hd, ?_⟩
    cases hc : checkMoveTo b p (p.pos + d)
    · rw [hc] at hf
      simp at hf
    · rw [hc] at hf
      simp at hf
      exact ⟨rfl, hf.symm⟩
  · rintro ⟨d, hd, hc, hm⟩
    exact ⟨d, hd, by rw [hc]; simp [hm]⟩

/-! ### Evaluation formulas for the board operations -/

theorem leave_white {b : BoardCore} {c : Piece} (hc : c.player = .white)
    (hm : c ∈ b.white) :
    leave b c = some { b with white := eraseFirst b.white c } := by
  simp [leave, hc, hm]

theorem leave_black {b : BoardCore} {c : Piece} (hc : c.player = .black)
    (hm : c ∈ b.black) :
    leave b c = some { b with black := eraseFirst b.black c } := by
  simp [leave, hc, hm]

theorem join_white {b : BoardCore} {c : Piece} (hc : c.player = .white) :
    join b c = { b with white := b.white ++ [c] } := by
  simp [join, hc]

theorem join_black {b : BoardCore} {c : Piece} (hc : c.player = .black) :
    join b c = { b with black := b.black ++ [c] } := by
  simp [join, hc]

theorem moveAt_eq_white {b : BoardCore} {t np : Position} {q : Piece}
    (h : findAt b.white t = some q) :
    moveAt b t np = some { b with white := updateFirst b.white t np } := by
  simp [moveAt, h]

theorem moveAt_eq_black {b : BoardCore} {t np : Position} {q : Piece}
    (hw : findAt b.white t = none) (h : findAt b.black t = some q) :
    moveAt b t np = some { b with black := updateFirst b.black t np } := by
  simp [moveAt, hw, h]

theorem setPos_setPos (q : Piece) (np t : Position) :
    setPos (setPos q np) t = setPos q t := rfl

theorem setPos_self (q : Piece) : setPos q q.pos = q := rfl

theorem makeMoveCore_formula {b bA bB bC : BoardCore} {m : Move}
    (h1 : (match m.captured with | some c => leave b c | none => some b) = some bA)
    (h2 : (match m.promotion with
           | some pr =>
             match leave bA pr.1 with
             | none => none
             | some bx => some (join bx pr.2)
           | none => some bA) = some bB)
    (h3 : moveAt bB m.oldPos m.newPos = some bC) :
    makeMoveCore b m = some { bC with history := bC.history ++ [m] } := by
  simp only [makeMoveCore, h1, h2, h3]

theorem undoMoveCore_formula {b b1 b2 b3 : BoardCore} {m : Move} {h' : List Move}
    (hlast : b.history.getLast? = some m)
    (hdrop : b.history.dropLast = h')
    (h1 : moveAt { b with history := h' } m.newPos m.oldPos = some b1)
    (h2 : (match m.promotion with
           | some pr =>
             match leave b1 pr.2 with
             | none => none
             | some bx => some (join bx pr.1)
           | none => some b1) = some b2)
    (h3 : (match m.captured with | some c => join b2 c | none => b2) = b3) :
    undoMoveCore b = some b3 := by
  simp only [undoMoveCore, hlast, hdrop, h1, h2, h3]

/-! ### The make/undo round trip on the board core -/

theorem coreRoundTrip (b : BoardCore) (p : Piece) (m : Move)
    (hwf : WF b = true) (hp : p ∈ b.white ++ b.black) (hm : m ∈ possibleMoves b p) :
    ∃ b1 b2, makeMoveCore b m = some b1 ∧ undoMoveCore b1 = some b2 ∧
      List.Perm b2.white b.white ∧ List.Perm b2.black b.black ∧ b2.history = b.history := by
  obtain ⟨d, _hd, hcheck, hmeq⟩ := mem_possibleMoves.mp hm
  subst hmeq
  set np := p.pos + d with hnpdef
  obtain ⟨hdp, hofW, hofB⟩ := WF_parts hwf
  have hWd : distinctPos b.white = true := (distinctPos_append hdp).1
  have hBd : distinctPos b.black = true := (distinctPos_append hdp).2
  have hnd : (b.white ++ b.black).Nodup := distinctPos_nodup hdp
  have henemy : ∀ c, boardAt b np = some c → c.player ≠ p.player := (checkMoveTo_true hcheck).2
  have hAt : boardAt b p.pos = some p := boardAt_of_mem hwf hp
  have hlastc : ∀ h : List Move, (h ++ [mkMoveObj b p np]).getLast? = some (mkMoveObj b p np) :=
    fun h => List.getLast?_concat h
  have hdropc : ∀ h : List Move, (h ++ [mkMoveObj b p np]).dropLast = h :=
    fun h => List.dropLast_concat
  cases hply : p.player with
  | white =>
    have hpW : p ∈ b.white := by
      rcases List.mem_append.mp hp with h | h
      · exact h
      · have hb := hofB p h
        rw [hply] at hb
        exact absurd hb (by simp)
    have hfW : findAt b.white p.pos = some p := findAt_of_mem hWd hpW rfl
    obtain ⟨W1, W2, hWeq, hW1⟩ := findAt_decomp hfW
    have hWnodup : b.white.Nodup := (List.nodup_append.mp hnd).1
    have hpW12 := nodup_middle_split (hWeq ▸ hWnodup)
    have hW1mem : ∀ x ∈ W1, x ∈ b.white := fun x hx => by
      rw [hWeq]; exact List.mem_append_left _ hx
    have hW2mem : ∀ x ∈ W2, x ∈ b.white := fun x hx => by
      rw [hWeq]; exact List.mem_append_right _ (List.mem_cons_of_mem _ hx)
    have hW12mem : ∀ x ∈ W1 ++ W2, x ∈ b.white := by
      intro x hx
      rcases List.mem_append.mp hx with h | h
      · exact hW1mem x h
      · exact hW2mem x h
    have hW2pos : ∀ x ∈ W2, x.pos ≠ p.pos := by
      intro x hx hxe
      have hxp : x = p :=
        distinctPos_same_pos hdp x (List.mem_append_left _ (hW2mem x hx)) p hp hxe
      exact hpW12.2 (hxp ▸ hx)
    have hW12pos : ∀ x ∈ W1 ++ W2, x.pos ≠ p.pos := by
      intro x hx
      rcases List.mem_append.mp hx with h | h
      · exact hW1 x h
      · exact hW2pos x h
    cases hcap : boardAt b np with
    | none =>
      have hnone : ∀ x ∈ b.white ++ b.black, x.pos ≠ np := findAt_eq_none.mp hcap
      have hc1 : (match (mkMoveObj b p np).captured with
                  | some c => leave b c
                  | none => some b) = some b := by
        simp [mkMoveObj, hcap]
      have hW1np : ∀ x ∈ W1, x.pos ≠ np := fun x hx =>
        hnone x (List.mem_append_left _ (hW1mem x hx))
      have hW12np : ∀ x ∈ W1 ++ W2, x.pos ≠ np := fun x hx =>
        hnone x (List.mem_append_left _ (hW12mem x hx))
      by_cases hpr : p.kind = Kind.pawn ∧ (np.row = 1 ∨ np.row = 8)
      · -- promotion without capture
        have hprom : (mkMoveObj b p np).promotion = some (p, queenAt p.player p.pos) := by
          simp [mkMoveObj, hpr]
        have htpl : (queenAt p.player p.pos).player = Color.white := hply
        have hfresh : queenAt p.player p.pos ∉ W1 ++ W2 := by
          intro hmem
          have hq : queenAt p.player p.pos = p :=
            distinctPos_same_pos hdp _ (List.mem_append_left _ (hW12mem _ hmem)) p hp rfl
          have hk := congrArg Piece.kind hq
          rw [hpr.1] at hk
          exact absurd hk (by simp [queenAt])
        have herase1 : eraseFirst b.white p = W1 ++ W2 := by
          rw [hWeq]
          exact eraseFirst_decomp hpW12.1
        have hmemPre : p ∈ (b : BoardCore).white := hpW
        have hlv1 : leave b p = some { b with white := W1 ++ W2 } := by
          rw [leave_white hply hmemPre, herase1]
        have hjn1 : join { b with white := W1 ++ W2 } (queenAt p.player p.pos) = { b with white := (W1 ++ W2) ++ [queenAt p.player p.pos] } := join_white htpl
        have hc2 : (match (mkMoveObj b p np).promotion with
                    | some pr =>
                      match leave b pr.1 with
                      | none => none
                      | some bx => some (join bx pr.2)
                    | none => some b)
            = some { b with white := (W1 ++ W2) ++ [queenAt p.player p.pos] } := by
          simp only [hprom, hlv1, hjn1]
        have hfindt : findAt ((W1 ++ W2) ++ [queenAt p.player p.pos]) p.pos = some (queenAt p.player p.pos) :=
          findAt_middle hW12pos rfl
        have hupA : updateFirst ((W1 ++ W2) ++ [queenAt p.player p.pos]) p.pos np = (W1 ++ W2) ++ [setPos (queenAt p.player p.pos) np] :=
          updateFirst_decomp hW12pos rfl
        have hc3 : moveAt { b with white := (W1 ++ W2) ++ [queenAt p.player p.pos] } p.pos np = some { b with white := (W1 ++ W2) ++ [setPos (queenAt p.player p.pos) np] } := by
          simp only [moveAt, hfindt, hupA]
        have hfindt2 : findAt ((W1 ++ W2) ++ [setPos (queenAt p.player p.pos) np]) np = some (setPos (queenAt p.player p.pos) np) :=
          findAt_middle hW12np rfl
        have hupB : updateFirst ((W1 ++ W2) ++ [setPos (queenAt p.player p.pos) np]) np p.pos = (W1 ++ W2) ++ [queenAt p.player p.pos] :=
          updateFirst_decomp hW12np rfl
        have hu1 : moveAt { b with white := (W1 ++ W2) ++ [setPos (queenAt p.player p.pos) np] } np p.pos = some { b with white := (W1 ++ W2) ++ [queenAt p.player p.pos] } := by
          simp only [moveAt, hfindt2, hupB]
        have htin : queenAt p.player p.pos ∈ (W1 ++ W2) ++ [queenAt p.player p.pos] := by simp
        have herase2 : eraseFirst ((W1 ++ W2) ++ [queenAt p.player p.pos]) (queenAt p.player p.pos) = W1 ++ W2 := by
          rw [eraseFirst_decomp hfresh]
          simp
        have hlv2 : leave { b with white := (W1 ++ W2) ++ [queenAt p.player p.pos] } (queenAt p.player p.pos) = some { b with white := W1 ++ W2 } := by
          rw [leave_white htpl htin, herase2]
        have hjn2 : join { b with white := W1 ++ W2 } p = { b with white := (W1 ++ W2) ++ [p] } := join_white hply
        have hu2 : (match (mkMoveObj b p np).promotion with
                    | some pr =>
                      match leave { b with white := (W1 ++ W2) ++ [queenAt p.player p.pos] } pr.2 with
                      | none => none
                      | some bx => some (join bx pr.1)
                    | none => some { b with white := (W1 ++ W2) ++ [queenAt p.player p.pos] })
            = some { b with white := (W1 ++ W2) ++ [p] } := by
          simp only [hprom, hlv2, hjn2]
        have hu3 : (match (mkMoveObj b p np).captured with
                    | some c0 => join { b with white := (W1 ++ W2) ++ [p] } c0
                    | none => { b with white := (W1 ++ W2) ++ [p] })
            = { b with white := (W1 ++ W2) ++ [p] } := by
          simp [mkMoveObj, hcap]
        refine ⟨_, _, makeMoveCore_formula hc1 hc2 hc3,
          undoMoveCore_formula (hlastc b.history) (hdropc b.history) hu1 hu2 hu3, ?_, ?_, rfl⟩
        · rw [hWeq]
          exact (List.perm_append_singleton _ _).trans List.perm_middle.symm
        · exact List.Perm.refl _
      · -- plain move without capture
        have hprom : (mkMoveObj b p np).promotion = none := by
          simp [mkMoveObj, hpr]
        have hc2 : (match (mkMoveObj b p np).promotion with
                    | some pr =>
                      match leave b pr.1 with
                      | none => none
                      | some bx => some (join bx pr.2)
                    | none => some b)
            = some b := by
          simp only [hprom]
        have hupA : updateFirst b.white p.pos np = W1 ++ setPos p np :: W2 := by
          rw [hWeq]
          exact updateFirst_decomp hW1 rfl
        have hc3 : moveAt b p.pos np = some { b with white := W1 ++ setPos p np :: W2 } := by
          simp only [moveAt, hfW, hupA]
        have hfind2 : findAt (W1 ++ setPos p np :: W2) np = some (setPos p np) :=
          findAt_middle hW1np rfl
        have hupB : updateFirst (W1 ++ setPos p np :: W2) np p.pos = W1 ++ p :: W2 :=
          updateFirst_decomp hW1np rfl
        have hu1 : moveAt { b with white := W1 ++ setPos p np :: W2 } np p.pos = some { b with white := W1 ++ p :: W2 } := by
          simp only [moveAt, hfind2, hupB]
        have hu2 : (match (mkMoveObj b p np).promotion with
                    | some pr =>
                      match leave { b with white := W1 ++ p :: W2 } pr.2 with
                      | none => none
                      | some bx => some (join bx pr.1)
                    | none => some { b with white := W1 ++ p :: W2 })
            = some { b with white := W1 ++ p :: W2 } := by
          simp only [hprom]
        have hu3 : (match (mkMoveObj b p np).captured with
                    | some c0 => join { b with white := W1 ++ p :: W2 } c0
                    | none => { b with white := W1 ++ p :: W2 })
            = { b with white := W1 ++ p :: W2 } := by
          simp [mkMoveObj, hcap]
        refine ⟨_, _, makeMoveCore_formula hc1 hc2 hc3,
          undoMoveCore_formula (hlastc b.history) (hdropc b.history) hu1 hu2 hu3, ?_, ?_, rfl⟩
        · rw [hWeq]
        · exact List.Perm.refl _
    | some c =>
      have hcm := boardAt_mem hcap
      have hcen : c.player ≠ p.player := henemy c hcap
      have hcnw : c.player ≠ Color.white := by rw [hply] at hcen; exact hcen
      have hcpl : c.player = Color.black := Color.eq_black_of_ne_white hcnw
      have hcnotW : c ∉ b.white := fun h => hcnw (hofW c h)
      have hcB : c ∈ b.black := by
        rcases List.mem_append.mp hcm.1 with h | h
        · exact absurd h hcnotW
        · exact h
      have hWnp : ∀ x ∈ b.white, x.pos ≠ np := by
        intro x hx hxe
        have hxc : x = c :=
          distinctPos_same_pos hdp x (List.mem_append_left _ hx) c hcm.1 (hxe.trans hcm.2.symm)
        exact hcnotW (hxc ▸ hx)
      have hc1 : (match (mkMoveObj b p np).captured with
                  | some c0 => leave b c0
                  | none => some b)
          = some { b with black := eraseFirst b.black c } := by
        simp only [mkMoveObj, hcap]
        exact leave_black hcpl hcB
      have hW1np : ∀ x ∈ W1, x.pos ≠ np := fun x hx => hWnp x (hW1mem x hx)
      have hW12np : ∀ x ∈ W1 ++ W2, x.pos ≠ np := fun x hx => hWnp x (hW12mem x hx)
      by_cases hpr : p.kind = Kind.pawn ∧ (np.row = 1 ∨ np.row = 8)
      · -- capture with promotion
        have hprom : (mkMoveObj b p np).promotion = some (p, queenAt p.player p.pos) := by
          simp [mkMoveObj, hpr]
        have htpl : (queenAt p.player p.pos).player = Color.white := hply
        have hfresh : queenAt p.player p.pos ∉ W1 ++ W2 := by
          intro hmem
          have hq : queenAt p.player p.pos = p :=
            distinctPos_same_pos hdp _ (List.mem_append_left _ (hW12mem _ hmem)) p hp rfl
          have hk := congrArg Piece.kind hq
          rw [hpr.1] at hk
          exact absurd hk (by simp [queenAt])
        have herase1 : eraseFirst b.white p = W1 ++ W2 := by
          rw [hWeq]
          exact eraseFirst_decomp hpW12.1
        have hmemPre : p ∈ ({ b with black := eraseFirst b.black c } : BoardCore).white := hpW
        have hlv1 : leave { b with black := eraseFirst b.black c } p = some { b with white := W1 ++ W2, black := eraseFirst b.black c } := by
          rw [leave_white hply hmemPre, herase1]
        have hjn1 : join { b with white := W1 ++ W2, black := eraseFirst b.black c } (queenAt p.player p.pos) = { b with white := (W1 ++ W2) ++ [queenAt p.player p.pos], black := eraseFirst b.black c } := join_white htpl
        have hc2 : (match (mkMoveObj b p np).promotion with
                    | some pr =>
                      match leave { b with black := eraseFirst b.black c } pr.1 with
                      | none => none
                      | some bx => some (join bx pr.2)
                    | none => some { b with black := eraseFirst b.black c })
            = some { b with white := (W1 ++ W2) ++ [queenAt p.player p.pos], black := eraseFirst b.black c } := by
          simp only [hprom, hlv1, hjn1]
        have hfindt : findAt ((W1 ++ W2) ++ [queenAt p.player p.pos]) p.pos = some (queenAt p.player p.pos) :=
          findAt_middle hW12pos rfl
        have hupA : updateFirst ((W1 ++ W2) ++ [queenAt p.player p.pos]) p.pos np = (W1 ++ W2) ++ [setPos (queenAt p.player p.pos) np] :=
          updateFirst_decomp hW12pos rfl
        have hc3 : moveAt { b with white := (W1 ++ W2) ++ [queenAt p.player p.pos], black := eraseFirst b.black c } p.pos np = some { b with white := (W1 ++ W2) ++ [setPos (queenAt p.player p.pos) np], black := eraseFirst b.black c } := by
          simp only [moveAt, hfindt, hupA]
        have hfindt2 : findAt ((W1 ++ W2) ++ [setPos (queenAt p.player p.pos) np]) np = some (setPos (queenAt p.player p.pos) np) :=
          findAt_middle hW12np rfl
        have hupB : updateFirst ((W1 ++ W2) ++ [setPos (queenAt p.player p.pos) np]) np p.pos = (W1 ++ W2) ++ [queenAt p.player p.pos] :=
          updateFirst_decomp hW12np rfl
        have hu1 : moveAt { b with white := (W1 ++ W2) ++ [setPos (queenAt p.player p.pos) np], black := eraseFirst b.black c } np p.pos = some { b with white := (W1 ++ W2) ++ [queenAt p.player p.pos], black := eraseFirst b.black c } := by
          simp only [moveAt, hfindt2, hupB]
        have htin : queenAt p.player p.pos ∈ (W1 ++ W2) ++ [queenAt p.player p.pos] := by simp
        have herase2 : eraseFirst ((W1 ++ W2) ++ [queenAt p.player p.pos]) (queenAt p.player p.pos) = W1 ++ W2 := by
          rw [eraseFirst_decomp hfresh]
          simp
        have hlv2 : leave { b with white := (W1 ++ W2) ++ [queenAt p.player p.pos], black := eraseFirst b.black c } (queenAt p.player p.pos) = some { b with white := W1 ++ W2, black := eraseFirst b.black c } := by
          rw [leave_white htpl htin, herase2]
        have hjn2 : join { b with white := W1 ++ W2, black := eraseFirst b.black c } p = { b with white := (W1 ++ W2) ++ [p], black := eraseFirst b.black c } := join_white hply
        have hu2 : (match (mkMoveObj b p np).promotion with
                    | some pr =>
                      match leave { b with white := (W1 ++ W2) ++ [queenAt p.player p.pos], black := eraseFirst b.black c } pr.2 with
                      | none => none
                      | some bx => some (join bx pr.1)
                    | none => some { b with white := (W1 ++ W2) ++ [queenAt p.player p.pos], black := eraseFirst b.black c })
            = some { b with white := (W1 ++ W2) ++ [p], black := eraseFirst b.black c } := by
          simp only [hprom, hlv2, hjn2]
        have hu3 : (match (mkMoveObj b p np).captured with
                    | some c0 => join { b with white := (W1 ++ W2) ++ [p], black := eraseFirst b.black c } c0
                    | none => { b with white := (W1 ++ W2) ++ [p], black := eraseFirst b.black c })
            = { b with white := (W1 ++ W2) ++ [p], black := eraseFirst b.black c ++ [c] } := by
          simp only [mkMoveObj, hcap]
          exact join_black hcpl
        refine ⟨_, _, makeMoveCore_formula hc1 hc2 hc3,
          undoMoveCore_formula (hlastc b.history) (hdropc b.history) hu1 hu2 hu3, ?_, ?_, rfl⟩
        · rw [hWeq]
          exact (List.perm_append_singleton _ _).trans List.perm_middle.symm
        · exact eraseFirst_append_self_perm hcB
      · -- plain capture
        have hprom : (mkMoveObj b p np).promotion = none := by
          simp [mkMoveObj, hpr]
        have hc2 : (match (mkMoveObj b p np).promotion with
                    | some pr =>
                      match leave { b with black := eraseFirst b.black c } pr.1 with
                      | none => none
                      | some bx => some (join bx pr.2)
                    | none => some { b with black := eraseFirst b.black c })
            = some { b with black := eraseFirst b.black c } := by
          simp only [hprom]
        have hupA : updateFirst b.white p.pos np = W1 ++ setPos p np :: W2 := by
          rw [hWeq]
          exact updateFirst_decomp hW1 rfl
        have hc3 : moveAt { b with black := eraseFirst b.black c } p.pos np = some { b with white := W1 ++ setPos p np :: W2, black := eraseFirst b.black c } := by
          simp only [moveAt, hfW, hupA]
        have hfind2 : findAt (W1 ++ setPos p np :: W2) np = some (setPos p np) :=
          findAt_middle hW1np rfl
        have hupB : updateFirst (W1 ++ setPos p np :: W2) np p.pos = W1 ++ p :: W2 :=
          updateFirst_decomp hW1np rfl
        have hu1 : moveAt { b with white := W1 ++ setPos p np :: W2, black := eraseFirst b.black c } np p.pos = some { b with white := W1 ++ p :: W2, black := eraseFirst b.black c } := by
          simp only [moveAt, hfind2, hupB]
        have hu2 : (match (mkMoveObj b p np).promotion with
                    | some pr =>
                      match leave { b with white := W1 ++ p :: W2, black := eraseFirst b.black c } pr.2 with
                      | none => none
                      | some bx => some (join bx pr.1)
                    | none => some { b with white := W1 ++ p :: W2, black := eraseFirst b.black c })
            = some { b with white := W1 ++ p :: W2, black := eraseFirst b.black c } := by
          simp only [hprom]
        have hu3 : (match (mkMoveObj b p np).captured with
                    | some c0 => join { b with white := W1 ++ p :: W2, black := eraseFirst b.black c } c0
                    | none => { b with white := W1 ++ p :: W2, black := eraseFirst b.black c })
            = { b with white := W1 ++ p :: W2, black := eraseFirst b.black c ++ [c] } := by
          simp only [mkMoveObj, hcap]
          exact join_black hcpl
        refine ⟨_, _, makeMoveCore_formula hc1 hc2 hc3,
          undoMoveCore_formula (hlastc b.history) (hdropc b.history) hu1 hu2 hu3, ?_, ?_, rfl⟩
        · rw [hWeq]
        · exact eraseFirst_append_self_perm hcB
  | black =>
    have hpB : p ∈ b.black := by
      rcases List.mem_append.mp hp with h | h
      · have hb := hofW p h
        rw [hply] at hb
        exact absurd hb (by simp)
      · exact h
    have hfB : findAt b.black p.pos = some p := findAt_of_mem hBd hpB rfl
    obtain ⟨B1, B2, hBeq, hB1⟩ := findAt_decomp hfB
    have hBnodup : b.black.Nodup := (List.nodup_append.mp hnd).2.1
    have hpB12 := nodup_middle_split (hBeq ▸ hBnodup)
    have hB1mem : ∀ x ∈ B1, x ∈ b.black := fun x hx => by
      rw [hBeq]; exact List.mem_append_left _ hx
    have hB2mem : ∀ x ∈ B2, x ∈ b.black := fun x hx => by
      rw [hBeq]; exact List.mem_append_right _ (List.mem_cons_of_mem _ hx)
    have hB12mem : ∀ x ∈ B1 ++ B2, x ∈ b.black := by
      intro x hx
      rcases List.mem_append.mp hx with h | h
      · exact hB1mem x h
      · exact hB2mem x h
    have hB2pos : ∀ x ∈ B2, x.pos ≠ p.pos := by
      intro x hx hxe
      have hxp : x = p :=
        distinctPos_same_pos hdp x (List.mem_append_right _ (hB2mem x hx)) p hp hxe
      exact hpB12.2 (hxp ▸ hx)
    have hB12pos : ∀ x ∈ B1 ++ B2, x.pos ≠ p.pos := by
      intro x hx
      rcases List.mem_append.mp hx with h | h
      · exact hB1 x h
      · exact hB2pos x h
    have hWold : findAt b.white p.pos = none := by
      rw [findAt_eq_none]
      intro x hx hxe
      have hxp : x = p :=
        distinctPos_same_pos hdp x (List.mem_append_left _ hx) p hp hxe
      have hb := hofW x hx
      rw [hxp, hply] at hb
      exact absurd hb (by simp)
    cases hcap : boardAt b np with
    | none =>
      have hnone : ∀ x ∈ b.white ++ b.black, x.pos ≠ np := findAt_eq_none.mp hcap
      have hc1 : (match (mkMoveObj b p np).captured with
                  | some c => leave b c
                  | none => some b) = some b := by
        simp [mkMoveObj, hcap]
      have hB1np : ∀ x ∈ B1, x.pos ≠ np := fun x hx =>
        hnone x (List.mem_append_right _ (hB1mem x hx))
      have hB12np : ∀ x ∈ B1 ++ B2, x.pos ≠ np := fun x hx =>
        hnone x (List.mem_append_right _ (hB12mem x hx))
      have hWnoneNp : findAt b.white np = none := by
        rw [findAt_eq_none]
        exact fun x hx => hnone x (List.mem_append_left _ hx)
      by_cases hpr : p.kind = Kind.pawn ∧ (np.row = 1 ∨ np.row = 8)
      · -- promotion without capture
        have hprom : (mkMoveObj b p np).promotion = some (p, queenAt p.player p.pos) := by
          simp [mkMoveObj, hpr]
        have htpl : (queenAt p.player p.pos).player = Color.black := hply
        have hfresh : queenAt p.player p.pos ∉ B1 ++ B2 := by
          intro hmem
          have hq : queenAt p.player p.pos = p :=
            distinctPos_same_pos hdp _ (List.mem_append_right _ (hB12mem _ hmem)) p hp rfl
          have hk := congrArg Piece.kind hq
          rw [hpr.1] at hk
          exact absurd hk (by simp [queenAt])
        have herase1 : eraseFirst b.black p = B1 ++ B2 := by
          rw [hBeq]
          exact eraseFirst_decomp hpB12.1
        have hmemPre : p ∈ (b : BoardCore).black := hpB
        have hlv1 : leave b p = some { b with black := B1 ++ B2 } := by
          rw [leave_black hply hmemPre, herase1]
        have hjn1 : join { b with black := B1 ++ B2 } (queenAt p.player p.pos) = { b with black := (B1 ++ B2) ++ [queenAt p.player p.pos] } := join_black htpl
        have hc2 : (match (mkMoveObj b p np).promotion with
                    | some pr =>
                      match leave b pr.1 with
                      | none => none
                      | some bx => some (join bx pr.2)
                    | none => some b)
            = some { b with black := (B1 ++ B2) ++ [queenAt p.player p.pos] } := by
          simp only [hprom, hlv1, hjn1]
        have hfindt : findAt ((B1 ++ B2) ++ [queenAt p.player p.pos]) p.pos = some (queenAt p.player p.pos) :=
          findAt_middle hB12pos rfl
        have hupA : updateFirst ((B1 ++ B2) ++ [queenAt p.player p.pos]) p.pos np = (B1 ++ B2) ++ [setPos (queenAt p.player p.pos) np] :=
          updateFirst_decomp hB12pos rfl
        have hc3 : moveAt { b with black := (B1 ++ B2) ++ [queenAt p.player p.pos] } p.pos np = some { b with black := (B1 ++ B2) ++ [setPos (queenAt p.player p.pos) np] } := by
          simp only [moveAt, hWold, hfindt, hupA]
        have hfindt2 : findAt ((B1 ++ B2) ++ [setPos (queenAt p.player p.pos) np]) np = some (setPos (queenAt p.player p.pos) np) :=
          findAt_middle hB12np rfl
        have hupB : updateFirst ((B1 ++ B2) ++ [setPos (queenAt p.player p.pos) np]) np p.pos = (B1 ++ B2) ++ [queenAt p.player p.pos] :=
          updateFirst_decomp hB12np rfl
        have hu1 : moveAt { b with black := (B1 ++ B2) ++ [setPos (queenAt p.player p.pos) np] } np p.pos = some { b with black := (B1 ++ B2) ++ [queenAt p.player p.pos] } := by
          simp only [moveAt, hWnoneNp, hfindt2, hupB]
        have htin : queenAt p.player p.pos ∈ (B1 ++ B2) ++ [queenAt p.player p.pos] := by simp
        have herase2 : eraseFirst ((B1 ++ B2) ++ [queenAt p.player p.pos]) (queenAt p.player p.pos) = B1 ++ B2 := by
          rw [eraseFirst_decomp hfresh]
          simp
        have hlv2 : leave { b with black := (B1 ++ B2) ++ [queenAt p.player p.pos] } (queenAt p.player p.pos) = some { b with black := B1 ++ B2 } := by
          rw [leave_black htpl htin, herase2]
        have hjn2 : join { b with black := B1 ++ B2 } p = { b with black := (B1 ++ B2) ++ [p] } := join_black hply
        have hu2 : (match (mkMoveObj b p np).promotion with
                    | some pr =>
                      match leave { b with black := (B1 ++ B2) ++ [queenAt p.player p.pos] } pr.2 with
                      | none => none
                      | some bx => some (join bx pr.1)
                    | none => some { b with black := (B1 ++ B2) ++ [queenAt p.player p.pos] })
            = some { b with black := (B1 ++ B2) ++ [p] } := by
          simp only [hprom, hlv2, hjn2]
        have hu3 : (match (mkMoveObj b p np).captured with
                    | some c0 => join { b with black := (B1 ++ B2) ++ [p] } c0
                    | none => { b with black := (B1 ++ B2) ++ [p] })
            = { b with black := (B1 ++ B2) ++ [p] } := by
          simp [mkMoveObj, hcap]
        refine ⟨_, _, makeMoveCore_formula hc1 hc2 hc3,
          undoMoveCore_formula (hlastc b.history) (hdropc b.history) hu1 hu2 hu3, ?_, ?_, rfl⟩
        · exact List.Perm.refl _
        · rw [hBeq]
          exact (List.perm_append_singleton _ _).trans List.perm_middle.symm
      · -- plain move without capture
        have hprom : (mkMoveObj b p np).promotion = none := by
          simp [mkMoveObj, hpr]
        have hc2 : (match (mkMoveObj b p np).promotion with
                    | some pr =>
                      match leave b pr.1 with
                      | none => none
                      | some bx => some (join bx pr.2)
                    | none => some b)
            = some b := by
          simp only [hprom]
        have hupA : updateFirst b.black p.pos np = B1 ++ setPos p np :: B2 := by
          rw [hBeq]
          exact updateFirst_decomp hB1 rfl
        have hc3 : moveAt b p.pos np = some { b with black := B1 ++ setPos p np :: B2 } := by
          simp only [moveAt, hWold, hfB, hupA]
        have hfind2 : findAt (B1 ++ setPos p np :: B2) np = some (setPos p np) :=
          findAt_middle hB1np rfl
        have hupB : updateFirst (B1 ++ setPos p np :: B2) np p.pos = B1 ++ p :: B2 :=
          updateFirst_decomp hB1np rfl
        have hu1 : moveAt { b with black := B1 ++ setPos p np :: B2 } np p.pos = some { b with black := B1 ++ p :: B2 } := by
          simp only [moveAt, hWnoneNp, hfind2, hupB]
        have hu2 : (match (mkMoveObj b p np).promotion with
                    | some pr =>
                      match leave { b with black := B1 ++ p :: B2 } pr.2 with
                      | none => none
                      | some bx => some (join bx pr.1)
                    | none => some { b with black := B1 ++ p :: B2 })
            = some { b with black := B1 ++ p :: B2 } := by
          simp only [hprom]
        have hu3 : (match (mkMoveObj b p np).captured with
                    | some c0 => join { b with black := B1 ++ p :: B2 } c0
                    | none => { b with black := B1 ++ p :: B2 })
            = { b with black := B1 ++ p :: B2 } := by
          simp [mkMoveObj, hcap]
        refine ⟨_, _, makeMoveCore_formula hc1 hc2 hc3,
          undoMoveCore_formula (hlastc b.history) (hdropc b.history) hu1 hu2 hu3, ?_, ?_, rfl⟩
        · exact List.Perm.refl _
        · rw [hBeq]
    | some c =>
      have hcm := boardAt_mem hcap
      have hcen : c.player ≠ p.player := henemy c hcap
      have hcnb : c.player ≠ Color.black := by rw [hply] at hcen; exact hcen
      have hcpl : c.player = Color.white := by
        cases hcc : c.player
        · rfl
        · exact absurd hcc hcnb
      have hcnotB : c ∉ b.black := fun h => hcnb (hofB c h)
      have hcW : c ∈ b.white := by
        rcases List.mem_append.mp hcm.1 with h | h
        · exact h
        · exact absurd h hcnotB
      have hBnp : ∀ x ∈ b.black, x.pos ≠ np := by
        intro x hx hxe
        have hxc : x = c :=
          distinctPos_same_pos hdp x (List.mem_append_right _ hx) c hcm.1 (hxe.trans hcm.2.symm)
        exact hcnotB (hxc ▸ hx)
      have hc1 : (match (mkMoveObj b p np).captured with
                  | some c0 => leave b c0
                  | none => some b)
          = some { b with white := eraseFirst b.white c } := by
        simp only [mkMoveObj, hcap]
        exact leave_white hcpl hcW
      have hB1np : ∀ x ∈ B1, x.pos ≠ np := fun x hx => hBnp x (hB1mem x hx)
      have hB12np : ∀ x ∈ B1 ++ B2, x.pos ≠ np := fun x hx => hBnp x (hB12mem x hx)
      have hWold2 : findAt (eraseFirst b.white c) p.pos = none := by
        rw [findAt_eq_none]
        intro x hx hxe
        have hxw : x ∈ b.white := eraseFirst_subset hx
        have hxp : x = p :=
          distinctPos_same_pos hdp x (List.mem_append_left _ hxw) p hp hxe
        have hb := hofW x hxw
        rw [hxp, hply] at hb
        exact absurd hb (by simp)
      have hWnone2 : findAt (eraseFirst b.white c) np = none := by
        rw [findAt_eq_none]
        intro x hx hxe
        have hxw : x ∈ b.white := eraseFirst_subset hx
        have hxc : x = c :=
          distinctPos_same_pos hdp x (List.mem_append_left _ hxw) c hcm.1 (hxe.trans hcm.2.symm)
        exact eraseFirst_nodup_not_mem ((List.nodup_append.mp hnd).1) (hxc ▸ hx)
      by_cases hpr : p.kind = Kind.pawn ∧ (np.row = 1 ∨ np.row = 8)
      · -- capture with promotion
        have hprom : (mkMoveObj b p np).promotion = some (p, queenAt p.player p.pos) := by
          simp [mkMoveObj, hpr]
        have htpl : (queenAt p.player p.pos).player = Color.black := hply
        have hfresh : queenAt p.player p.pos ∉ B1 ++ B2 := by
          intro hmem
          have hq : queenAt p.player p.pos = p :=
            distinctPos_same_pos hdp _ (List.mem_append_right _ (hB12mem _ hmem)) p hp rfl
          have hk := congrArg Piece.kind hq
          rw [hpr.1] at hk
          exact absurd hk (by simp [queenAt])
        have herase1 : eraseFirst b.black p = B1 ++ B2 := by
          rw [hBeq]
          exact eraseFirst_decomp hpB12.1
        have hmemPre : p ∈ ({ b with white := eraseFirst b.white c } : BoardCore).black := hpB
        have hlv1 : leave { b with white := eraseFirst b.white c } p = some { b with white := eraseFirst b.white c, black := B1 ++ B2 } := by
          rw [leave_black hply hmemPre, herase1]
        have hjn1 : join { b with white := eraseFirst b.white c, black := B1 ++ B2 } (queenAt p.player p.pos) = { b with white := eraseFirst b.white c, black := (B1 ++ B2) ++ [queenAt p.player p.pos] } := join_black htpl
        have hc2 : (match (mkMoveObj b p np).promotion with
                    | some pr =>
                      match leave { b with white := eraseFirst b.white c } pr.1 with
                      | none => none
                      | some bx => some (join bx pr.2)
                    | none => some { b with white := eraseFirst b.white c })
            = some { b with white := eraseFirst b.white c, black := (B1 ++ B2) ++ [queenAt p.player p.pos] } := by
          simp only [hprom, hlv1, hjn1]
        have hfindt : findAt ((B1 ++ B2) ++ [queenAt p.player p.pos]) p.pos = some (queenAt p.player p.pos) :=
          findAt_middle hB12pos rfl
        have hupA : updateFirst ((B1 ++ B2) ++ [queenAt p.player p.pos]) p.pos np = (B1 ++ B2) ++ [setPos (queenAt p.player p.pos) np] :=
          updateFirst_decomp hB12pos rfl
        have hc3 : moveAt { b with white := eraseFirst b.white c, black := (B1 ++ B2) ++ [queenAt p.player p.pos] } p.pos np = some { b with white := eraseFirst b.white c, black := (B1 ++ B2) ++ [setPos (queenAt p.player p.pos) np] } := by
          simp only [moveAt, hWold2, hfindt, hupA]
        have hfindt2 : findAt ((B1 ++ B2) ++ [setPos (queenAt p.player p.pos) np]) np = some (setPos (queenAt p.player p.pos) np) :=
          findAt_middle hB12np rfl
        have hupB : updateFirst ((B1 ++ B2) ++ [setPos (queenAt p.player p.pos) np]) np p.pos = (B1 ++ B2) ++ [queenAt p.player p.pos] :=
          updateFirst_decomp hB12np rfl
        have hu1 : moveAt { b with white := eraseFirst b.white c, black := (B1 ++ B2) ++ [setPos (queenAt p.player p.pos) np] } np p.pos = some { b with white := eraseFirst b.white c, black := (B1 ++ B2) ++ [queenAt p.player p.pos] } := by
          simp only [moveAt, hWnone2, hfindt2, hupB]
        have htin : queenAt p.player p.pos ∈ (B1 ++ B2) ++ [queenAt p.player p.pos] := by simp
        have herase2 : eraseFirst ((B1 ++ B2) ++ [queenAt p.player p.pos]) (queenAt p.player p.pos) = B1 ++ B2 := by
          rw [eraseFirst_decomp hfresh]
          simp
        have hlv2 : leave { b with white := eraseFirst b.white c, black := (B1 ++ B2) ++ [queenAt p.player p.pos] } (queenAt p.player p.pos) = some { b with white := eraseFirst b.white c, black := B1 ++ B2 } := by
          rw [leave_black htpl htin, herase2]
        have hjn2 : join { b with white := eraseFirst b.white c, black := B1 ++ B2 } p = { b with white := eraseFirst b.white c, black := (B1 ++ B2) ++ [p] } := join_black hply
        have hu2 : (match (mkMoveObj b p np).promotion with
                    | some pr =>
                      match leave { b with white := eraseFirst b.white c, black := (B1 ++ B2) ++ [queenAt p.player p.pos] } pr.2 with
                      | none => none
                      | some bx => some (join bx pr.1)
                    | none => some { b with white := eraseFirst b.white c, black := (B1 ++ B2) ++ [queenAt p.player p.pos] })
            = some { b with white := eraseFirst b.white c, black := (B1 ++ B2) ++ [p] } := by
          simp only [hprom, hlv2, hjn2]
        have hu3 : (match (mkMoveObj b p np).captured with
                    | some c0 => join { b with white := eraseFirst b.white c, black := (B1 ++ B2) ++ [p] } c0
                    | none => { b with white := eraseFirst b.white c, black := (B1 ++ B2) ++ [p] })
            = { b with white := eraseFirst b.white c ++ [c], black := (B1 ++ B2) ++ [p] } := by
          simp only [mkMoveObj, hcap]
          exact join_white hcpl
        refine ⟨_, _, makeMoveCore_formula hc1 hc2 hc3,
          undoMoveCore_formula (hlastc b.history) (hdropc b.history) hu1 hu2 hu3, ?_, ?_, rfl⟩
        · exact eraseFirst_append_self_perm hcW
        · rw [hBeq]
          exact (List.perm_append_singleton _ _).trans List.perm_middle.symm
      · -- plain capture
        have hprom : (mkMoveObj b p np).promotion = none := by
          simp [mkMoveObj, hpr]
        have hc2 : (match (mkMoveObj b p np).promotion with
                    | some pr =>
                      match leave { b with white := eraseFirst b.white c } pr.1 with
                      | none => none
                      | some bx => some (join bx pr.2)
                    | none => some { b with white := eraseFirst b.white c })
            = some { b with white := eraseFirst b.white c } := by
          simp only [hprom]
        have hupA : updateFirst b.black p.pos np = B1 ++ setPos p np :: B2 := by
          rw [hBeq]
          exact updateFirst_decomp hB1 rfl
        have hc3 : moveAt { b with white := eraseFirst b.white c } p.pos np = some { b with white := eraseFirst b.white c, black := B1 ++ setPos p np :: B2 } := by
          simp only [moveAt, hWold2, hfB, hupA]
        have hfind2 : findAt (B1 ++ setPos p np :: B2) np = some (setPos p np) :=
          findAt_middle hB1np rfl
        have hupB : updateFirst (B1 ++ setPos p np :: B2) np p.pos = B1 ++ p :: B2 :=
          updateFirst_decomp hB1np rfl
        have hu1 : moveAt { b with white := eraseFirst b.white c, black := B1 ++ setPos p np :: B2 } np p.pos = some { b with white := eraseFirst b.white c, black := B1 ++ p :: B2 } := by
          simp only [moveAt, hWnone2, hfind2, hupB]
        have hu2 : (match (mkMoveObj b p np).promotion with
                    | some pr =>
                      match leave { b with white := eraseFirst b.white c, black := B1 ++ p :: B2 } pr.2 with
                      | none => none
                      | some bx => some (join bx pr.1)
                    | none => some { b with white := eraseFirst b.white c, black := B1 ++ p :: B2 })
            = some { b with white := eraseFirst b.white c, black := B1 ++ p :: B2 } := by
          simp only [hprom]
        have hu3 : (match (mkMoveObj b p np).captured with
                    | some c0 => join { b with white := eraseFirst b.white c, black := B1 ++ p :: B2 } c0
                    | none => { b with white := eraseFirst b.white c, black := B1 ++ p :: B2 })
            = { b with white := eraseFirst b.white c ++ [c], black := B1 ++ p :: B2 } := by
          simp only [mkMoveObj, hcap]
          exact join_white hcpl
        refine ⟨_, _, makeMoveCore_formula hc1 hc2 hc3,
          undoMoveCore_formula (hlastc b.history) (hdropc b.history) hu1 hu2 hu3, ?_, ?_, rfl⟩
        · exact eraseFirst_append_self_perm hcW
        · rw [hBeq]

/-! ### The board operations read only the piece lists, never the history -/

theorem boardAt_congr {b b' : BoardCore} (hw : b'.white = b.white)
    (hb : b'.black = b.black) (t : Position) : boardAt b' t = boardAt b t := by
  unfold boardAt
  rw [hw, hb]

theorem slWalk_congr {b b' : BoardCore} (hw : b'.white = b.white) (hb : b'.black = b.black)
    (e : Position) (d : Direction) :
    ∀ n pos, slWalk b' e d n pos = slWalk b e d n pos := by
  intro n
  induction n with
  | zero => intro pos; rfl
  | succ k ih =>
    intro pos
    unfold slWalk
    rw [boardAt_congr hw hb, ih]

theorem straightLineTo_congr {b b' : BoardCore} (hw : b'.white = b.white)
    (hb : b'.black = b.black) (s e : Position) :
    straightLineTo b' s e = straightLineTo b s e := by
  simp only [straightLineTo]
  exact slWalk_congr hw hb _ _ _ _

theorem baseCheck_congr {b b' : BoardCore} (hw : b'.white = b.white)
    (hb : b'.black = b.black) (p : Piece) (np : Position) :
    baseCheck b' p np = baseCheck b p np := by
  unfold baseCheck
  rw [boardAt_congr hw hb]

theorem checkMoveTo_congr {b b' : BoardCore} (hw : b'.white = b.white)
    (hb : b'.black = b.black) (p : Piece) (np : Position) :
    checkMoveTo b' p np = checkMoveTo b p np := by
  cases hk : p.kind <;>
    simp only [checkMoveTo, hk, boardAt_congr hw hb, baseCheck_congr hw hb,
      straightLineTo_congr hw hb]

theorem pawnDirs_congr {b b' : BoardCore} (hw : b'.white = b.white)
    (hb : b'.black = b.black) (p : Piece) : pawnDirs b' p = pawnDirs b p := by
  unfold pawnDirs
  simp only [boardAt_congr hw hb]

theorem allDirs_congr {b b' : BoardCore} (hw : b'.white = b.white)
    (hb : b'.black = b.black) (p : Piece) : allDirs b' p = allDirs b p := by
  cases hk : p.kind <;> simp only [allDirs, hk, pawnDirs_congr hw hb]

theorem mkMoveObj_congr {b b' : BoardCore} (hw : b'.white = b.white)
    (hb : b'.black = b.black) (p : Piece) (np : Position) :
    mkMoveObj b' p np = mkMoveObj b p np := by
  unfold mkMoveObj
  rw [boardAt_congr hw hb]

theorem possibleMoves_congr {b b' : BoardCore} (hw : b'.white = b.white)
    (hb : b'.black = b.black) (p : Piece) :
    possibleMoves b' p = possibleMoves b p := by
  unfold possibleMoves
  rw [allDirs_congr hw hb]
  congr 1
  funext d
  simp only [checkMoveTo_congr hw hb, mkMoveObj_congr hw hb]

theorem WF_congr {b b' : BoardCore} (hw : b'.white = b.white)
    (hb : b'.black = b.black) : WF b' = WF b := by
  unfold WF ownersOK
  rw [hw, hb]

/-! ### History tracking through the primitive operations -/

theorem leave_inv {b b' : BoardCore} {c : Piece} (h : leave b c = some b') :
    b' = { b with white := eraseFirst b.white c } ∨
      b' = { b with black := eraseFirst b.black c } := by
  unfold leave at h
  rcases hcp : c.player <;> simp only [hcp] at h
  · left
    by_cases hm : c ∈ b.white
    · rw [if_pos hm] at h
      exact (Option.some.inj h).symm
    · rw [if_neg hm] at h
      exact absurd h (by simp)
  · right
    by_cases hm : c ∈ b.black
    · rw [if_pos hm] at h
      exact (Option.some.inj h).symm
    · rw [if_neg hm] at h
      exact absurd h (by simp)

theorem leave_history {b b' : BoardCore} {c : Piece} (h : leave b c = some b') :
    b'.history = b.history := by
  rcases leave_inv h with h1 | h1 <;> rw [h1]

theorem join_history (b : BoardCore) (c : Piece) : (join b c).history = b.history := by
  unfold join
  cases c.player <;> rfl

theorem join_white_list (b : BoardCore) (c : Piece) :
    (join b c).white = b.white ∨ (join b c).white = b.white ++ [c] := by
  unfold join
  cases c.player
  · right; rfl
  · left; rfl

theorem moveAt_history {b b' : BoardCore} {t np : Position}
    (h : moveAt b t np = some b') : b'.history = b.history := by
  unfold moveAt at h
  split at h
  · simp only [Option.some.injEq] at h
    rw [← h]
  · split at h
    · simp only [Option.some.injEq] at h
      rw [← h]
    · simp at h

theorem capturedStep_history {b b1 : BoardCore} {c? : Option Piece}
    (h : (match c? with | some c => leave b c | none => some b) = some b1) :
    b1.history = b.history := by
  rcases c? with _ | c
  · rw [← Option.some.inj h]
  · exact leave_history h

theorem promoStep_history {bA b2 : BoardCore} {pr? : Option (Piece × Piece)}
    (h : (match pr? with
          | some pr =>
            match leave bA pr.1 with
            | none => none
            | some bx => some (join bx pr.2)
          | none => some bA) = some b2) : b2.history = bA.history := by
  rcases pr? with _ | pr
  · rw [← Option.some.inj h]
  · have h2 : (match leave bA pr.1 with
               | none => none
               | some bx => some (join bx pr.2)) = some b2 := h
    rcases hx : leave bA pr.1 with _ | bx
    · rw [hx] at h2
      exact Option.noConfusion h2
    · rw [hx] at h2
      rw [← Option.some.inj h2, join_history]
      exact leave_history hx

theorem promoUndoStep_history {bA b2 : BoardCore} {pr? : Option (Piece × Piece)}
    (h : (match pr? with
          | some pr =>
            match leave bA pr.2 with
            | none => none
            | some bx => some (join bx pr.1)
          | none => some bA) = some b2) : b2.history = bA.history := by
  rcases pr? with _ | pr
  · rw [← Option.some.inj h]
  · have h2 : (match leave bA pr.2 with
               | none => none
               | some bx => some (join bx pr.1)) = some b2 := h
    rcases hx : leave bA pr.2 with _ | bx
    · rw [hx] at h2
      exact Option.noConfusion h2
    · rw [hx] at h2
      rw [← Option.some.inj h2, join_history]
      exact leave_history hx

theorem joinStep_history {b2 b' : BoardCore} {c? : Option Piece}
    (h : (match c? with | some c => join b2 c | none => b2) = b') :
    b'.history = b2.history := by
  rcases c? with _ | c
  · rw [← h]
  · rw [← h]
    exact join_history _ _

theorem makeMoveCore_history {b b' : BoardCore} {m : Move}
    (h : makeMoveCore b m = some b') : b'.history = b.history ++ [m] := by
  unfold makeMoveCore at h
  split at h
  · simp at h
  · next b1 heq1 =>
    split at h
    · simp at h
    · next b2 heq2 =>
      split at h
      · simp at h
      · next b3 heq3 =>
        have e1 := capturedStep_history heq1
        have e2 := promoStep_history heq2
        have e3 := moveAt_history heq3
        rw [← Option.some.inj h]
        simp only [e3, e2, e1]

/-! ### Facts about moves parsed from long-algebraic strings -/

theorem fromCode_some {b : BoardCore} {n : MoveCode} {p0 : Piece}
    (h : boardAt b n.oldPos = some p0) :
    fromCode b n = some
      { piece := p0, oldPos := n.oldPos, newPos := n.newPos,
        promotion := if n.promo then some (p0, queenAt p0.player n.oldPos) else none,
        player := p0.player, captured := boardAt b n.newPos } := by
  unfold fromCode
  rw [h]

theorem fromCode_inv {b : BoardCore} {n : MoveCode} {m : Move}
    (h : fromCode b n = some m) :
    ∃ p0, boardAt b n.oldPos = some p0 ∧
      m = { piece := p0, oldPos := n.oldPos, newPos := n.newPos,
            promotion := if n.promo then some (p0, queenAt p0.player n.oldPos) else none,
            player := p0.player, captured := boardAt b n.newPos } := by
  unfold fromCode at h
  split at h
  · exact Option.noConfusion h
  · next p0 hp0 => exact ⟨p0, hp0, (Option.some.inj h).symm⟩

theorem fromCode_code {b : BoardCore} {n : MoveCode} {m : Move}
    (h : fromCode b n = some m) : m.code = n := by
  obtain ⟨p0, -, rfl⟩ := fromCode_inv h
  cases hb : n.promo <;> simp [Move.code, hb] <;> rw [← hb]

theorem eqMove_iff {a b0 : Move} :
    Move.eqMove a b0 = true ↔ a.oldPos = b0.oldPos ∧ a.newPos = b0.newPos := by
  simp [Move.eqMove]

theorem moveKey_eq_of_code {m m2 : Move} (h : m2.code = m.code) :
    moveKey m2 = moveKey m := by
  simp only [Move.code, MoveCode.mk.injEq] at h
  simp [moveKey, h.1, h.2.1]

/-! ### Existence lemmas for the primitive operations -/

theorem findAt_isSome_of_exists {l : List Piece} {t : Position}
    (h : ∃ x ∈ l, x.pos = t) : ∃ q, findAt l t = some q := by
  induction l with
  | nil => simp at h
  | cons y ys ih =>
    by_cases hy : y.pos = t
    · exact ⟨y, by simp [findAt, hy]⟩
    · obtain ⟨x, hx, hxt⟩ := h
      rcases List.mem_cons.mp hx with rfl | hx2
      · exact absurd hxt hy
      · obtain ⟨q, hq⟩ := ih ⟨x, hx2, hxt⟩
        exact ⟨q, by simp [findAt, hy, hq]⟩

theorem mem_eraseFirst_of_ne {l : List Piece} {a x : Piece}
    (hx : x ∈ l) (hne : x ≠ a) : x ∈ eraseFirst l a := by
  induction l with
  | nil => simp at hx
  | cons y ys ih =>
    by_cases hy : y = a
    · simp only [eraseFirst, if_pos hy]
      rcases List.mem_cons.mp hx with rfl | h2
      · exact absurd hy hne
      · exact h2
    · simp only [eraseFirst, if_neg hy]
      rcases List.mem_cons.mp hx with rfl | h2
      · exact List.mem_cons_self _ _
      · exact List.mem_cons_of_mem _ (ih h2)

theorem mem_updateFirst {l : List Piece} {t np : Position} {q : Piece}
    (h : findAt l t = some q) : setPos q np ∈ updateFirst l t np := by
  obtain ⟨l1, l2, rfl, h1⟩ := findAt_decomp h
  rw [updateFirst_decomp h1 (findAt_mem h).2]
  simp

theorem moveAt_some_of_exists {b : BoardCore} {t : Position} (np : Position)
    (h : ∃ x ∈ b.white ++ b.black, x.pos = t) : ∃ b', moveAt b t np = some b' := by
  unfold moveAt
  rcases hw : findAt b.white t with _ | q
  · obtain ⟨x, hx, hxt⟩ := h
    rcases List.mem_append.mp hx with h1 | h1
    · exact absurd hxt (findAt_eq_none.mp hw x h1)
    · obtain ⟨q, hq⟩ := findAt_isSome_of_exists ⟨x, h1, hxt⟩
      rw [hq]
      exact ⟨_, rfl⟩
  · exact ⟨_, rfl⟩

theorem moveAt_target_exists {b b' : BoardCore} {t np : Position}
    (h : moveAt b t np = some b') : ∃ x ∈ b'.white ++ b'.black, x.pos = np := by
  unfold moveAt at h
  split at h
  · next q hq =>
    rw [← Option.some.inj h]
    exact ⟨setPos q np, List.mem_append_left _ (mem_updateFirst hq), rfl⟩
  · split at h
    · next q hq =>
      rw [← Option.some.inj h]
      exact ⟨setPos q np, List.mem_append_right _ (mem_updateFirst hq), rfl⟩
    · exact Option.noConfusion h

theorem undoMoveCore_history {b b' : BoardCore}
    (h : undoMoveCore b = some b') : b'.history = b.history.dropLast := by
  unfold undoMoveCore at h
  split at h
  · simp at h
  · next m hlast =>
    split at h
    · simp at h
    · next b1 heq1 =>
      split at h
      · simp at h
      · next b2 heq2 =>
        have e0 := joinStep_history (Option.some.inj h)
        have e2 := promoUndoStep_history heq2
        have e1 := moveAt_history heq1
        rw [e0, e2, e1]

/-! ### The sandbox synchronization invariant -/

theorem checkSync_of_histSync {b : Board} (h : HistSync b) : checkSync b = true := by
  unfold HistSync at h
  have hlen : b.main.history.length = b.sandbox.history.length := by
    have hc := congrArg List.length h
    simpa using hc
  have hlast : b.main.history.getLast?.map moveKey
      = b.sandbox.history.getLast?.map moveKey := by
    rw [← List.getLast?_map, ← List.getLast?_map, h]
  unfold checkSync
  rw [decide_eq_true hlen, Bool.true_and]
  rcases h1 : b.main.history.getLast? with _ | x <;>
    rcases h2 : b.sandbox.history.getLast? with _ | y
  · rfl
  · rfl
  · rfl
  · rw [h1, h2] at hlast
    simp only [Option.map_some'] at hlast
    have hk := Option.some.inj hlast
    simp only [moveKey, Prod.mk.injEq] at hk
    rw [eqMove_iff]
    exact hk

theorem makeMoveN_none_of_desync {b : Board} (n : MoveCode)
    (h : checkSync b = false) : Board.makeMoveN b n = none := by
  simp [Board.makeMoveN, h]

theorem makeMoveObj_none_of_desync {b : Board} (m : Move)
    (h : checkSync b = false) : Board.makeMoveObj b m = none := by
  simp [Board.makeMoveObj, h]

theorem makeMoveN_inv {b b' : Board} {n : MoveCode}
    (h : Board.makeMoveN b n = some b') :
    checkSync b = true ∧
      ∃ m m2 main1 sand1,
        fromCode b.main n = some m ∧ makeMoveCore b.main m = some main1 ∧
        fromCode b.sandbox m.code = some m2 ∧ makeMoveCore b.sandbox m2 = some sand1 ∧
        b' = ⟨main1, sand1⟩ := by
  unfold Board.makeMoveN at h
  by_cases hc : checkSync b = true
  · rw [if_pos hc] at h
    refine ⟨hc, ?_⟩
    split at h
    · exact Option.noConfusion h
    · next m hm =>
      split at h
      · exact Option.noConfusion h
      · next main1 hmain =>
        split at h
        · exact Option.noConfusion h
        · next m2 hm2 =>
          split at h
          · exact Option.noConfusion h
          · next sand1 hsand =>
            exact ⟨m, m2, main1, sand1, hm, hmain, hm2, hsand, (Option.some.inj h).symm⟩
  · rw [if_neg hc] at h
    exact Option.noConfusion h

theorem makeMoveObj_inv {b b' : Board} {m : Move}
    (h : Board.makeMoveObj b m = some b') :
    checkSync b = true ∧
      ∃ m2 main1 sand1,
        makeMoveCore b.main m = some main1 ∧
        fromCode b.sandbox m.code = some m2 ∧ makeMoveCore b.sandbox m2 = some sand1 ∧
        b' = ⟨main1, sand1⟩ := by
  unfold Board.makeMoveObj at h
  by_cases hc : checkSync b = true
  · rw [if_pos hc] at h
    refine ⟨hc, ?_⟩
    split at h
    · exact Option.noConfusion h
    · next main1 hmain =>
      split at h
      · exact Option.noConfusion h
      · next m2 hm2 =>
        split at h
        · exact Option.noConfusion h
        · next sand1 hsand =>
          exact ⟨m2, main1, sand1, hmain, hm2, hsand, (Option.some.inj h).symm⟩
  · rw [if_neg hc] at h
    exact Option.noConfusion h

theorem undoMove_inv {b b' : Board} (h : Board.undoMove b = some b') :
    ∃ main1 sand1, undoMoveCore b.main = some main1 ∧
      undoMoveCore b.sandbox = some sand1 ∧ b' = ⟨main1, sand1⟩ := by
  unfold Board.undoMove at h
  split at h
  · exact Option.noConfusion h
  · next main1 hmain =>
    split at h
    · exact Option.noConfusion h
    · next sand1 hsand =>
      exact ⟨main1, sand1, hmain, hsand, (Option.some.inj h).symm⟩

theorem histSync_makeMoveN {b b' : Board} {n : MoveCode}
    (hs : HistSync b) (h : Board.makeMoveN b n = some b') : HistSync b' := by
  obtain ⟨-, m, m2, main1, sand1, hm, hmain, hm2, hsand, rfl⟩ := makeMoveN_inv h
  unfold HistSync at *
  show main1.history.map moveKey = sand1.history.map moveKey
  rw [makeMoveCore_history hmain, makeMoveCore_history hsand]
  simp [hs, moveKey_eq_of_code (fromCode_code hm2)]

theorem histSync_makeMoveObj {b b' : Board} {m : Move}
    (hs : HistSync b) (h : Board.makeMoveObj b m = some b') : HistSync b' := by
  obtain ⟨-, m2, main1, sand1, hmain, hm2, hsand, rfl⟩ := makeMoveObj_inv h
  unfold HistSync at *
  show main1.history.map moveKey = sand1.history.map moveKey
  rw [makeMoveCore_history hmain, makeMoveCore_history hsand]
  simp [hs, moveKey_eq_of_code (fromCode_code hm2)]

theorem histSync_undoMove {b b' : Board}
    (hs : HistSync b) (h : Board.undoMove b = some b') : HistSync b' := by
  obtain ⟨main1, sand1, hmain, hsand, rfl⟩ := undoMove_inv h
  unfold HistSync at *
  show main1.history.map moveKey = sand1.history.map moveKey
  rw [undoMoveCore_history hmain, undoMoveCore_history hsand]
  rw [List.map_dropLast, List.map_dropLast, hs]

theorem applyAllN_histSync :
    ∀ (xs : List MoveCode) (b b' : Board), HistSync b →
      applyAllN b xs = some b' → HistSync b' := by
  intro xs
  induction xs with
  | nil =>
    intro b b' hs h
    rw [← Option.some.inj h]
    exact hs
  | cons x xs ih =>
    intro b b' hs h
    unfold applyAllN at h
    rcases hmk : Board.makeMoveN b x with _ | b1 <;> rw [hmk] at h
    · exact Option.noConfusion h
    · exact ih b1 b' (histSync_makeMoveN hs hmk) h

theorem histSync_initial : HistSync Board.initial := rfl

theorem histSync_syncMoves {b b' : Board} {moves : List MoveCode}
    (hs : HistSync b) (h : Board.syncMoves b moves = some b') : HistSync b' := by
  simp only [Board.syncMoves] at h
  by_cases hrec : (decide (moves.length ≤ b.main.history.length)
      || !histAgrees b.main.history moves) = true
  · rw [if_pos hrec] at h
    exact applyAllN_histSync _ _ _ histSync_initial h
  · rw [if_neg hrec] at h
    exact applyAllN_histSync _ _ _ hs h

/-! ### `evaluate_complete` leaves both histories unchanged -/

theorem evalCompleteStep_inv {main sandbox main' sand' : BoardCore} {m : Move}
    (h : evalCompleteStep main sandbox m = some (main', sand')) :
    main'.history = main.history ∧ sand'.history = sandbox.history := by
  unfold evalCompleteStep at h
  split at h
  · exact Option.noConfusion h
  · next mainA heqA =>
    split at h
    · exact Option.noConfusion h
    · next mainB heqB =>
      split at h
      · exact Option.noConfusion h
      · next sandA heqSA =>
        simp only [] at h
        split at h
        · exact Option.noConfusion h
        · next mu hmu =>
          split at h
          · exact Option.noConfusion h
          · next sandD heqSD =>
            split at h
            · exact Option.noConfusion h
            · next mainC heqC =>
              have hpair := Option.some.inj h
              have hm' : (match mu.captured with
                          | some c => join mainC c
                          | none => mainC) = main' := congrArg Prod.fst hpair
              have hs' : sandD = sand' := congrArg Prod.snd hpair
              constructor
              · rw [← hm']
                have e0 : (match mu.captured with
                           | some c => join mainC c
                           | none => mainC).history = mainC.history := joinStep_history rfl
                rw [e0, promoUndoStep_history heqC, promoStep_history heqB,
                  capturedStep_history heqA]
              · rw [← hs', moveAt_history heqSD]
                show ((sandA.history ++ [m]).dropLast) = sandbox.history
                rw [List.dropLast_concat, moveAt_history heqSA]

theorem foldEval_hist :
    ∀ (ms : List Move) (mn sb mn' sb' : BoardCore) (r : List (Move × ℚ)),
      foldEval mn sb ms = some (mn', sb', r) →
      mn'.history = mn.history ∧ sb'.history = sb.history := by
  intro ms
  induction ms with
  | nil =>
    intro mn sb mn' sb' r h
    simp only [foldEval, Option.some.injEq, Prod.mk.injEq] at h
    rw [← h.1, ← h.2.1]
    exact ⟨rfl, rfl⟩
  | cons m ms ih =>
    intro mn sb mn' sb' r h
    unfold foldEval at h
    rcases hstep : evalCompleteStep mn sb m with _ | p <;> rw [hstep] at h
    · exact Option.noConfusion h
    · obtain ⟨mnA, sbA⟩ := p
      simp only [] at h
      rcases hfe : foldEval mnA sbA ms with _ | q <;> rw [hfe] at h
      · exact Option.noConfusion h
      · obtain ⟨mnB, sbB, rest⟩ := q
        simp only [Option.some.injEq, Prod.mk.injEq] at h
        have e := ih mnA sbA mnB sbB rest hfe
        have estep := evalCompleteStep_inv hstep
        constructor
        · rw [← h.1, e.1, estep.1]
        · rw [← h.2.1, e.2, estep.2]

theorem histSync_bestmove {b : Board} {sample : List Move} {b' : Board} {mv : Move}
    (hs : HistSync b) (h : bestmove b sample = some (b', mv)) : HistSync b' := by
  unfold bestmove at h
  split at h
  · exact Option.noConfusion h
  · split at h
    · exact Option.noConfusion h
    · next mainB sandB scored hfe =>
      split at h
      · exact Option.noConfusion h
      · next m0 s0 rest =>
        simp only [] at h
        split at h
        · exact Option.noConfusion h
        · next b1 hmk =>
          have hinj := Option.some.inj h
          have hb1 : b1 = b' := congrArg Prod.fst hinj
          have hfh := foldEval_hist _ _ _ _ _ _ hfe
          have hsx : HistSync (⟨mainB, sandB⟩ : Board) := by
            unfold HistSync at *
            show mainB.history.map moveKey = sandB.history.map moveKey
            rw [hfh.1, hfh.2, hs]
          rw [← hb1]
          exact histSync_makeMoveObj hsx hmk

/-! ### Success of `make_move` for any occupied origin square -/

theorem ownersOK_parts {b : BoardCore} (h : ownersOK b = true) :
    (∀ x ∈ b.white, x.player = Color.white) ∧ (∀ x ∈ b.black, x.player = Color.black) := by
  simp only [ownersOK, Bool.and_eq_true, List.all_eq_true, decide_eq_true_eq] at h
  exact h

theorem leave_some_of_mem {b : BoardCore} {x : Piece}
    (howW : ∀ y ∈ b.white, y.player = Color.white)
    (howB : ∀ y ∈ b.black, y.player = Color.black)
    (hx : x ∈ b.white ++ b.black) :
    ∃ bx, leave b x = some bx ∧ bx.history = b.history ∧
      (∀ y ∈ b.white ++ b.black, y ≠ x → y ∈ bx.white ++ bx.black) ∧
      (∀ y ∈ bx.white, y.player = Color.white) ∧
      (∀ y ∈ bx.black, y.player = Color.black) := by
  rcases List.mem_append.mp hx with h1 | h1
  · refine ⟨_, leave_white (howW x h1) h1, rfl, ?_, ?_, ?_⟩
    · intro y hy hne
      rcases List.mem_append.mp hy with h2 | h2
      · exact List.mem_append_left _ (mem_eraseFirst_of_ne h2 hne)
      · exact List.mem_append_right _ h2
    · intro y hy
      exact howW y (eraseFirst_subset hy)
    · exact howB
  · refine ⟨_, leave_black (howB x h1) h1, rfl, ?_, ?_, ?_⟩
    · intro y hy hne
      rcases List.mem_append.mp hy with h2 | h2
      · exact List.mem_append_left _ h2
      · exact List.mem_append_right _ (mem_eraseFirst_of_ne h2 hne)
    · exact howW
    · intro y hy
      exact howB y (eraseFirst_subset hy)

theorem join_mem (b : BoardCore) (c : Piece) :
    c ∈ (join b c).white ++ (join b c).black := by
  unfold join
  rcases h : c.player <;> simp

theorem makeMoveCore_fromCode_success {b : BoardCore} {n : MoveCode} {m : Move}
    (how : ownersOK b = true) (hne : n.oldPos ≠ n.newPos)
    (hm : fromCode b n = some m) :
    ∃ b', makeMoveCore b m = some b' ∧ b'.history = b.history ++ [m] := by
  obtain ⟨p0, hp0, rfl⟩ := fromCode_inv hm
  obtain ⟨howW, howB⟩ := ownersOK_parts how
  have hp0m := boardAt_mem hp0
  -- the captured-piece step
  have hstep1 : ∃ bA, (match boardAt b n.newPos with
                       | some c => leave b c
                       | none => some b) = some bA ∧
      bA.history = b.history ∧ p0 ∈ bA.white ++ bA.black ∧
      (∀ y ∈ bA.white, y.player = Color.white) ∧
      (∀ y ∈ bA.black, y.player = Color.black) := by
    rcases hcap : boardAt b n.newPos with _ | c
    · exact ⟨b, rfl, rfl, hp0m.1, howW, howB⟩
    · have hcm := boardAt_mem hcap
      have hpc : p0 ≠ c := by
        intro he
        exact hne (hp0m.2 ▸ (he ▸ hcm.2 : p0.pos = n.newPos)).symm.symm
      obtain ⟨bx, hlv, hhist, hmem, hW, hB⟩ := leave_some_of_mem howW howB hcm.1
      exact ⟨bx, hlv, hhist, hmem p0 hp0m.1 hpc, hW, hB⟩
  obtain ⟨bA, h1, hA, hp0A, hWA, hBA⟩ := hstep1
  have h1' : (match
        ({ piece := p0, oldPos := n.oldPos, newPos := n.newPos,
           promotion := if n.promo = true then some (p0, queenAt p0.player n.oldPos) else none,
           player := p0.player, captured := boardAt b n.newPos } : Move).captured with
      | some c => leave b c
      | none => some b) = some bA := h1
  -- the promotion step
  by_cases hpr : n.promo = true
  · obtain ⟨bx, hlv, hxh, -, -, -⟩ := leave_some_of_mem hWA hBA hp0A
    have h2 : (match
          ({ piece := p0, oldPos := n.oldPos, newPos := n.newPos,
             promotion := if n.promo = true then some (p0, queenAt p0.player n.oldPos) else none,
             player := p0.player, captured := boardAt b n.newPos } : Move).promotion with
        | some pr =>
          match leave bA pr.1 with
          | none => none
          | some bx => some (join bx pr.2)
        | none => some bA) = some (join bx (queenAt p0.player n.oldPos)) := by
      simp only [if_pos hpr, hlv]
    obtain ⟨bC, h3⟩ := moveAt_some_of_exists (b := join bx (queenAt p0.player n.oldPos))
      n.newPos ⟨queenAt p0.player n.oldPos, join_mem _ _, rfl⟩
    refine ⟨_, makeMoveCore_formula h1' h2 h3, ?_⟩
    show bC.history ++ [_] = b.history ++ [_]
    rw [moveAt_history h3, join_history, hxh, hA]
  · have h2 : (match
          ({ piece := p0, oldPos := n.oldPos, newPos := n.newPos,
             promotion := if n.promo = true then some (p0, queenAt p0.player n.oldPos) else none,
             player := p0.player, captured := boardAt b n.newPos } : Move).promotion with
        | some pr =>
          match leave bA pr.1 with
          | none => none
          | some bx => some (join bx pr.2)
        | none => some bA) = some bA := by
      simp only [if_neg hpr]
    obtain ⟨bC, h3⟩ := moveAt_some_of_exists (b := bA) n.newPos ⟨p0, hp0A, hp0m.2⟩
    refine ⟨_, makeMoveCore_formula h1' h2 h3, ?_⟩
    show bC.history ++ [_] = b.history ++ [_]
    rw [moveAt_history h3, hA]

/-! ### Legal moves and their notation mirror -/

theorem legal_ne {b : BoardCore} {p : Piece} {m : Move}
    (hwf : WF b = true) (hp : p ∈ b.white ++ b.black) (hm : m ∈ possibleMoves b p) :
    m.oldPos = p.pos ∧ m.newPos ≠ p.pos := by
  obtain ⟨d, -, hcheck, rfl⟩ := mem_possibleMoves.mp hm
  refine ⟨rfl, ?_⟩
  intro he
  have hAt : boardAt b p.pos = some p := boardAt_of_mem hwf hp
  have he' : p.pos + d = p.pos := he
  rw [← he'] at hAt
  exact (checkMoveTo_true hcheck).2 p hAt rfl

theorem mirror_fromCode {b b2 : BoardCore} {p : Piece} {m : Move}
    (hwf : WF b = true) (hp : p ∈ b.white ++ b.black) (hm : m ∈ possibleMoves b p)
    (hw : b2.white = b.white) (hb : b2.black = b.black) :
    fromCode b2 m.code = some m := by
  obtain ⟨d, -, hcheck, rfl⟩ := mem_possibleMoves.mp hm
  have hAt : boardAt b p.pos = some p := boardAt_of_mem hwf hp
  have hAt2 : boardAt b2 p.pos = some p := by
    rw [boardAt_congr hw hb]
    exact hAt
  have hcap2 : boardAt b2 (p.pos + d) = boardAt b (p.pos + d) := boardAt_congr hw hb _
  by_cases hpr : p.kind = Kind.pawn ∧ ((p.pos + d).row = 1 ∨ (p.pos + d).row = 8) <;>
    simp [fromCode, Move.code, mkMoveObj, hAt2, hcap2, hpr]

/-! ### Assembly formulas for the primary-board operations -/

theorem makeMoveN_formula {main sand main1 sand1 : BoardCore} {n : MoveCode} {m m2 : Move}
    (hsync : checkSync ⟨main, sand⟩ = true)
    (h0 : fromCode main n = some m) (h1 : makeMoveCore main m = some main1)
    (h2 : fromCode sand m.code = some m2) (h3 : makeMoveCore sand m2 = some sand1) :
    Board.makeMoveN ⟨main, sand⟩ n = some ⟨main1, sand1⟩ := by
  unfold Board.makeMoveN
  rw [if_pos hsync]
  simp only [h0, h1, h2, h3]

theorem makeMoveObj_formula {main sand main1 sand1 : BoardCore} {m m2 : Move}
    (hsync : checkSync ⟨main, sand⟩ = true)
    (h1 : makeMoveCore main m = some main1)
    (h2 : fromCode sand m.code = some m2) (h3 : makeMoveCore sand m2 = some sand1) :
    Board.makeMoveObj ⟨main, sand⟩ m = some ⟨main1, sand1⟩ := by
  unfold Board.makeMoveObj
  rw [if_pos hsync]
  simp only [h1, h2, h3]

theorem undoMove_formula {main sand main1 sand1 : BoardCore}
    (h1 : undoMoveCore main = some main1) (h2 : undoMoveCore sand = some sand1) :
    Board.undoMove ⟨main, sand⟩ = some ⟨main1, sand1⟩ := by
  unfold Board.undoMove
  simp only [h1, h2]

/-! ### Permutation helpers for the leave/join chains -/

theorem perm_eraseFirst_concat (l : List Piece) (a : Piece) :
    List.Perm (eraseFirst (l ++ [a]) a) l := by
  induction l with
  | nil => simp [eraseFirst]
  | cons x xs ih =>
    by_cases hx : x = a
    · simp only [List.cons_append, eraseFirst, if_pos hx]
      rw [hx]
      exact List.perm_append_singleton a xs
    · simp only [List.cons_append, eraseFirst, if_neg hx]
      exact ih.cons x

theorem list_promo_perm {l : List Piece} (a q : Piece) (ha : a ∈ l) :
    List.Perm (eraseFirst (eraseFirst l a ++ [q]) q ++ [a]) l :=
  ((perm_eraseFirst_concat (eraseFirst l a) q).append_right [a]).trans
    (eraseFirst_append_self_perm ha)

theorem mem_white_of_player {b : BoardCore} {c : Piece}
    (hofB : ∀ x ∈ b.black, x.player = Color.black)
    (hc : c ∈ b.white ++ b.black) (hpl : c.player = Color.white) : c ∈ b.white := by
  rcases List.mem_append.mp hc with h | h
  · exact h
  · rw [hofB c h] at hpl
    exact absurd hpl (by decide)

theorem mem_black_of_player {b : BoardCore} {c : Piece}
    (hofW : ∀ x ∈ b.white, x.player = Color.white)
    (hc : c ∈ b.white ++ b.black) (hpl : c.player = Color.black) : c ∈ b.black := by
  rcases List.mem_append.mp hc with h | h
  · rw [hofW c h] at hpl
    exact absurd hpl (by decide)
  · exact h

theorem posAdd_cancel {q : Position} {d e : Direction} (h : q + d = q + e) : d = e := by
  cases d with
  | mk dc dr =>
    cases e with
    | mk ec er =>
      have h1 : q.col + dc = q.col + ec := congrArg Position.col h
      have h2 : q.row + dr = q.row + er := congrArg Position.row h
      simp only [Direction.mk.injEq]
      omega

/-! ### The prefix comparison and replay loops of `sync_moves` -/

theorem histAgrees_iff :
    ∀ (hist : List Move) (mv : List MoveCode),
      histAgrees hist mv = true ↔
        ∀ (i : Nat) (hi : i < hist.length) (hj : i < mv.length),
          Move.eqCode (hist.get ⟨i, hi⟩) (mv.get ⟨i, hj⟩) = true := by
  intro hist
  induction hist with
  | nil =>
    intro mv
    simp [histAgrees]
  | cons x xs ih =>
    intro mv
    cases mv with
    | nil =>
      simp [histAgrees]
    | cons y ys =>
      simp only [histAgrees, List.zip_cons_cons, List.all_cons, Bool.and_eq_true]
      constructor
      · rintro ⟨h0, hrest⟩ i hi hj
        cases i with
        | zero => exact h0
        | succ n =>
          have hx : histAgrees xs ys = true := hrest
          exact (ih ys).mp hx n (by simp only [List.length_cons] at hi; omega)
            (by simp only [List.length_cons] at hj; omega)
      · intro hall
        refine ⟨hall 0 (by simp) (by simp), ?_⟩
        have hx : histAgrees xs ys = true :=
          (ih ys).mpr (fun n hn hn' =>
            hall (n + 1) (by simp only [List.length_cons]; omega)
              (by simp only [List.length_cons]; omega))
        exact hx

theorem applyAllN_append :
    ∀ (xs ys : List MoveCode) (b : Board),
      applyAllN b (xs ++ ys) =
        match applyAllN b xs with
        | none => none
        | some b1 => applyAllN b1 ys := by
  intro xs
  induction xs with
  | nil =>
    intro ys b
    rfl
  | cons x xs ih =>
    intro ys b
    simp only [List.cons_append, applyAllN]
    rcases hmk : Board.makeMoveN b x with _ | b1
    · rfl
    · exact ih ys b1

theorem take_eq_map_code :
    ∀ (hist : List Move) (mv : List MoveCode), hist.length ≤ mv.length →
      histAgrees hist mv = true → mv.take hist.length = hist.map Move.code := by
  intro hist
  induction hist with
  | nil =>
    intro mv _ _
    simp
  | cons x xs ih =>
    intro mv hlen hagr
    cases mv with
    | nil => simp at hlen
    | cons y ys =>
      simp only [histAgrees, List.zip_cons_cons, List.all_cons, Bool.and_eq_true] at hagr
      have h0 : x.code = y := by
        have h1 := hagr.1
        simp only [Move.eqCode, decide_eq_true_eq] at h1
        exact h1
      have hx : histAgrees xs ys = true := hagr.2
      simp only [List.length_cons, List.take_succ_cons, List.map_cons]
      rw [ih ys (by simp only [List.length_cons] at hlen; omega) hx, h0]

/-! ### Exact restoration of the sandbox lists by the make/undo pair of
`evaluate_complete`, when the destination square of the sandbox is empty -/

theorem updateFirst_back :
    ∀ {l : List Piece} {t np : Position} {q : Piece},
      findAt l t = some q → findAt l np = none →
      findAt (updateFirst l t np) np = some (setPos q np) ∧
        updateFirst (updateFirst l t np) np t = l := by
  intro l
  induction l with
  | nil =>
    intro t np q hq hn
    exact absurd hq (by simp [findAt])
  | cons x xs ih =>
    intro t np q hq hn
    have hxnp : x.pos ≠ np ∧ findAt xs np = none := by
      by_cases hx : x.pos = np
      · rw [findAt, if_pos hx] at hn
        exact absurd hn (by simp)
      · rw [findAt, if_neg hx] at hn
        exact ⟨hx, hn⟩
    by_cases hx : x.pos = t
    · rw [findAt, if_pos hx] at hq
      have hq' : x = q := Option.some.inj hq
      rw [updateFirst, if_pos hx]
      constructor
      · rw [findAt, if_pos (show (setPos x np).pos = np from rfl), hq']
      · rw [updateFirst, if_pos (show (setPos x np).pos = np from rfl), setPos_setPos,
          ← hx, setPos_self]
    · rw [findAt, if_neg hx] at hq
      rw [updateFirst, if_neg hx]
      obtain ⟨ih1, ih2⟩ := ih hq hxnp.2
      constructor
      · rw [findAt, if_neg hxnp.1, ih1]
      · rw [updateFirst, if_neg hxnp.1, ih2]

theorem moveAt_roundtrip {b bA : BoardCore} {t np : Position} (H : List Move)
    (hnone : boardAt b np = none)
    (h : moveAt b t np = some bA) :
    moveAt { bA with history := H } np t = some ⟨b.white, b.black, H⟩ := by
  have hWB : findAt b.white np = none ∧ findAt b.black np = none := by
    have hn : findAt (b.white ++ b.black) np = none := hnone
    rw [findAt_append] at hn
    rcases hw : findAt b.white np with _ | q
    · rw [hw] at hn
      exact ⟨rfl, hn⟩
    · rw [hw] at hn
      exact absurd hn (by simp)
  unfold moveAt at h ⊢
  split at h
  · next q hq =>
    have hbA := Option.some.inj h
    obtain ⟨hf, hu⟩ := updateFirst_back hq hWB.1
    rw [← hbA]
    simp only [hf, hu]
  · split at h
    · next q hq =>
      have hbA := Option.some.inj h
      obtain ⟨hf, hu⟩ := updateFirst_back hq hWB.2
      rw [← hbA]
      simp only [hWB.1, hf, hu, findAt_eq_none.mpr]
    · exact Option.noConfusion h

theorem evalCompleteStep_sandbox_exact {main sandbox : BoardCore} {m : Move}
    {mc sand1 : BoardCore}
    (hdest : boardAt sandbox m.newPos = none)
    (h : evalCompleteStep main sandbox m = some (mc, sand1)) : sand1 = sandbox := by
  unfold evalCompleteStep at h
  split at h
  · exact Option.noConfusion h
  · next mainA heqA =>
    split at h
    · exact Option.noConfusion h
    · next mainB heqB =>
      split at h
      · exact Option.noConfusion h
      · next sandA heqSA =>
        simp only [] at h
        split at h
        · exact Option.noConfusion h
        · next mu hmu =>
          have hmu' : m = mu := Option.some.inj ((List.getLast?_concat _).symm.trans hmu)
          subst hmu'
          split at h
          · exact Option.noConfusion h
          · next sandD heqSD =>
            split at h
            · exact Option.noConfusion h
            · next mainC heqC =>
              have hs' : sandD = sand1 := congrArg Prod.snd (Option.some.inj h)
              have hrt := moveAt_roundtrip ((sandA.history ++ [m]).dropLast) hdest heqSA
              have heqSD' :
                  moveAt ({ sandA with history := (sandA.history ++ [m]).dropLast } :
                    BoardCore) m.newPos m.oldPos = some sandD := heqSD
              have hval : sandD =
                  ⟨sandbox.white, sandbox.black, (sandA.history ++ [m]).dropLast⟩ :=
                Option.some.inj (heqSD'.symm.trans hrt)
              rw [← hs', hval]
              have hh : (sandA.history ++ [m]).dropLast = sandbox.history := by
                rw [List.dropLast_concat, moveAt_history heqSA]
              rw [hh]

/-! ### The claims -/

/-- C2, refuted: on the two-piece board, `evaluate_complete` of the
capturing knight move Nxg5 returns `1 + 0.3 · 1 = 1.3` (the lookahead term
is the evaluation of the position *after the sandbox move has been undone*),
while the claimed formula — capture score plus `0.3` times the evaluation of
the position reached by *applying* the move on the sandbox — returns
`1 + 0.3 · 0 = 1`. -/
theorem C2_counterexample :
    evaluateComplete tinyCore tinyCore tinyMove = some (13 / 10) ∧
      specEvaluateComplete tinyCore tinyCore tinyMove = some 1 ∧
      evaluateComplete tinyCore tinyCore tinyMove ≠
        specEvaluateComplete tinyCore tinyCore tinyMove := by
  have hImm : evalImmediate tinyCore tinyMove = 1 := by decide
  have hstep : evalCompleteStep tinyCore tinyCore tinyMove = some (tinyCore, tinyCore) := by
    decide
  have hEv : tinyCore.evaluate = 1 := by decide
  have h1 : evaluateComplete tinyCore tinyCore tinyMove = some (13 / 10) := by
    unfold evaluateComplete
    rw [hstep, hImm]
    show some (((1 : Int) : ℚ) + 3 / 10 * (tinyCore.evaluate : ℚ)) = some (13 / 10)
    rw [hEv]
    have hv : ((1 : Int) : ℚ) + 3 / 10 * ((1 : Int) : ℚ) = 13 / 10 := by norm_num
    rw [hv]
  have hmk : makeMoveCore tinyCore tinyMove =
      some ⟨[setPos knightT ⟨7, 5⟩], [], [tinyMove]⟩ := by decide
  have hEv2 : (⟨[setPos knightT ⟨7, 5⟩], [], [tinyMove]⟩ : BoardCore).evaluate = 0 := by
    decide
  have h2 : specEvaluateComplete tinyCore tinyCore tinyMove = some 1 := by
    unfold specEvaluateComplete
    rw [hmk, hImm]
    show some (((1 : Int) : ℚ) +
      3 / 10 * ((⟨[setPos knightT ⟨7, 5⟩], [], [tinyMove]⟩ : BoardCore).evaluate : ℚ)) = some 1
    rw [hEv2]
    have hv : ((1 : Int) : ℚ) + 3 / 10 * ((0 : Int) : ℚ) = 1 := by norm_num
    rw [hv]
  refine ⟨h1, h2, ?_⟩
  rw [h1, h2]
  intro hc
  exact absurd (Option.some.inj hc) (by norm_num)

/-- C2 (amended): for every move whose destination square is empty on the
sandbox, `evaluate_complete` returns the capture score of the piece standing
on the move's destination of the primary board (`0` for an empty square)
plus `0.3` times the static `evaluate()` of the sandbox position *before*
the move — the sandbox move is made and then undone, so the lookahead factor
scores the restored pre-move position, not the post-move position. -/
theorem C2_evaluateComplete (main sandbox : BoardCore) (m : Move) (v : ℚ)
    (hdest : boardAt sandbox m.newPos = none)
    (h : evaluateComplete main sandbox m = some v) :
    v = (evalImmediate main m : ℚ) + 3 / 10 * (sandbox.evaluate : ℚ) := by
  unfold evaluateComplete at h
  split at h
  · exact Option.noConfusion h
  · next mc sand1 heq =>
    rw [evalCompleteStep_sandbox_exact hdest heq] at h
    exact (Option.some.inj h).symm

/-- Witness for C2 (amended): the non-capturing knight move Nf4 on the
two-piece board scores `0 + 0.3 · 1 = 0.3`, the evaluation `1` being that of
the unchanged two-piece position. -/
theorem C2_evaluateComplete_witness :
    (3 / 10 : ℚ) = (evalImmediate tinyCore tinyMoveNC : ℚ) +
      3 / 10 * (tinyCore.evaluate : ℚ) :=
  C2_evaluateComplete tinyCore tinyCore tinyMoveNC (3 / 10) (by decide)
    (by
      have hstep : evalCompleteStep tinyCore tinyCore tinyMoveNC =
          some (tinyCore, tinyCore) := by decide
      have hImm : evalImmediate tinyCore tinyMoveNC = 0 := by decide
      have hEv : tinyCore.evaluate = 1 := by decide
      unfold evaluateComplete
      rw [hstep, hImm]
      show some (((0 : Int) : ℚ) + 3 / 10 * (tinyCore.evaluate : ℚ)) = some (3 / 10)
      rw [hEv]
      have hv : ((0 : Int) : ℚ) + 3 / 10 * ((1 : Int) : ℚ) = 3 / 10 := by norm_num
      rw [hv])

/-- C4: the pointwise history synchronization `HistSync` (equal length,
equal moves under `Move.__eq__`) implies the `make_move` assertions pass;
when the assertion data is violated, `make_move` aborts (returns nothing)
instead of repairing; the invariant holds of a fresh board and is preserved
by `make_move` (notation and object forms), `undo_move`, `sync_moves` and
`bestmove` — so it holds immediately before and after every mutating
operation of a board driven through them. -/
theorem C4_sandboxSync :
    (∀ b : Board, HistSync b →
       b.main.history.length = b.sandbox.history.length ∧ checkSync b = true) ∧
    (∀ b : Board, checkSync b = false →
       (∀ n, Board.makeMoveN b n = none) ∧ ∀ m, Board.makeMoveObj b m = none) ∧
    HistSync Board.initial ∧
    (∀ (b b' : Board) (n : MoveCode),
       HistSync b → Board.makeMoveN b n = some b' → HistSync b') ∧
    (∀ (b b' : Board) (m : Move),
       HistSync b → Board.makeMoveObj b m = some b' → HistSync b') ∧
    (∀ b b' : Board, HistSync b → Board.undoMove b = some b' → HistSync b') ∧
    (∀ (b b' : Board) (moves : List MoveCode),
       HistSync b → Board.syncMoves b moves = some b' → HistSync b') ∧
    (∀ (b b' : Board) (sample : List Move) (mv : Move),
       HistSync b → bestmove b sample = some (b', mv) → HistSync b') := by
  refine ⟨?_, ?_, histSync_initial, ?_, ?_, ?_, ?_, ?_⟩
  · intro b hs
    refine ⟨?_, checkSync_of_histSync hs⟩
    have hl := congrArg List.length hs
    simpa using hl
  · intro b hd
    exact ⟨fun n => makeMoveN_none_of_desync n hd, fun m => makeMoveObj_none_of_desync m hd⟩
  · intro b b' n hs h
    exact histSync_makeMoveN hs h
  · intro b b' m hs h
    exact histSync_makeMoveObj hs h
  · intro b b' hs h
    exact histSync_undoMove hs h
  · intro b b' moves hs h
    exact histSync_syncMoves hs h
  · intro b b' sample mv hs h
    exact histSync_bestmove hs h

/-- C6: building a `Move` from a SAN token succeeds exactly when the filter
pipeline (`active` pieces, by piece letter, optional origin file and rank
hints, and a matching move in the piece's own `possible_moves()`) leaves
exactly one candidate; zero or several candidates make the construction
fail; on success the move is built from the single remaining piece. -/
theorem C6_sanResolution (b : BoardCore) (tok : SanTok) :
    ((fromSan b tok).isSome ↔ (sanCandidates b tok).length = 1) ∧
    ∀ p, sanCandidates b tok = [p] →
      fromSan b tok = some
        { piece := p, oldPos := p.pos, newPos := tok.newPos, promotion := none,
          player := p.player, captured := boardAt b tok.newPos } := by
  constructor
  · unfold fromSan
    rcases hs : sanCandidates b tok with _ | ⟨p, _ | ⟨q, l⟩⟩ <;> simp
  · intro p hp
    unfold fromSan
    rw [hp]

/-- Witness for C6: the token `e3` on the initial board resolves to the
single candidate pawn on e2, and the resulting move goes from e2 to e3. -/
theorem C6_sanResolution_witness :
    fromSan initialCore tokE3 = some
      { piece := pawnE2, oldPos := pawnE2.pos, newPos := tokE3.newPos,
        promotion := none, player := pawnE2.player,
        captured := boardAt initialCore tokE3.newPos } :=
  (C6_sanResolution initialCore tokE3).2 pawnE2 (by decide)

/-- C7, refuted: `Move('e7e8')` and `Move('e7e8q')` on the initial board
share origin and destination but differ in their promotion marker, yet
`Move.__eq__` compares them equal — the equality ignores the promotion
marker, contradicting the claimed (origin, destination, promotion) triple. -/
theorem C7_counterexample :
    Move.eqMove moveE7E8 moveE7E8q = true ∧
      moveE7E8.promotion = none ∧ moveE7E8q.promotion ≠ none ∧
      moveE7E8.oldPos = moveE7E8q.oldPos ∧ moveE7E8.newPos = moveE7E8q.newPos := by
  refine ⟨by decide, by decide, by decide, by decide, by decide⟩

/-- C7 (amended): `Move.__eq__` on two `Move` objects compares the origin
and the destination only — never object identity, the captured piece, or the
promotion marker; the comparison of a `Move` against a history string
(`sync_moves`) is by full notation, which does include the promotion sign. -/
theorem C7_moveEq :
    (∀ a b0 : Move,
       Move.eqMove a b0 = true ↔ a.oldPos = b0.oldPos ∧ a.newPos = b0.newPos) ∧
    ∀ (a : Move) (n : MoveCode), Move.eqCode a n = true ↔ a.code = n := by
  refine ⟨fun a b0 => eqMove_iff, fun a n => ?_⟩
  simp [Move.eqCode]

/-- C8, refuted: the engine accepts `e2e3` followed by `d2d3`, both by
white; the resulting history has even length 2, yet the active player is
black (the opposite of the last mover), not white as the claimed
length-parity rule demands. -/
theorem C8_counterexample :
    boardTwoWhite.main.history.length = 2 ∧
      boardTwoWhite.main.history.map Move.player = [Color.white, Color.white] ∧
      activeColor boardTwoWhite.main = Color.black := by
  refine ⟨by decide, by decide, by decide⟩

/-- C8 (amended): `Board.active` is white for an empty history and otherwise
the opposite of the last move's player; only on histories whose moves
actually alternate colours starting with white does it coincide with the
claimed parity rule (white on even history length, black on odd). -/
theorem C8_activeParity (b : BoardCore) (ha : Alternating b.history) :
    activeColor b = (if b.history.length % 2 = 0 then Color.white else Color.black) := by
  rcases hh : b.history.getLast? with _ | m
  · have he : b.history = [] := by
      cases hb : b.history with
      | nil => rfl
      | cons x xs =>
        rw [hb] at hh
        simp at hh
    simp only [activeColor, hh, he, List.length_nil]
    rfl
  · have hne : b.history ≠ [] := by
      intro he
      rw [he] at hh
      exact Option.noConfusion hh
    have hpos : 0 < b.history.length := List.length_pos.mpr hne
    have hget : b.history.get ⟨b.history.length - 1, by omega⟩ = m := by
      rw [List.getLast?_eq_getLast b.history hne] at hh
      rw [← Option.some.inj hh]
      exact (List.getLast_eq_getElem b.history hne).symm
    have hpar := ha (b.history.length - 1) (by omega)
    rw [hget] at hpar
    simp only [activeColor, hh]
    rw [hpar]
    by_cases hp2 : (b.history.length - 1) % 2 = 0
    · rw [if_pos hp2, if_neg (by omega)]
      rfl
    · rw [if_neg hp2, if_pos (by omega)]
      rfl

/-- Witness for C8 (amended): the fresh board's empty history alternates
vacuously, and its active player is white, matching parity `0`. -/
theorem C8_activeParity_witness :
    activeColor Board.initial.main =
      (if Board.initial.main.history.length % 2 = 0 then Color.white else Color.black) :=
  C8_activeParity Board.initial.main (by intro i hi; simp [Board.initial, initialCore] at hi)

/-- C1: on a well-formed primary board whose sandbox replicates its piece
lists and passes the synchronization assertions, `make_move` with any legal
move (one of some piece's `possible_moves()`) followed immediately by
`undo_move` restores the pre-move state: the piece multiset of each player's
list — hence every piece's set membership, position and owning player — and
the history are identical to before the move, on the primary board and on
the sandbox alike, including capturing and promoting moves. -/
theorem C1_makeUndoRoundTrip (b : Board) (p : Piece) (m : Move)
    (hwf : WF b.main = true)
    (hw : b.sandbox.white = b.main.white) (hb : b.sandbox.black = b.main.black)
    (hsync : checkSync b = true)
    (hp : p ∈ b.main.white ++ b.main.black)
    (hm : m ∈ possibleMoves b.main p) :
    ∃ b1 b2, Board.makeMoveObj b m = some b1 ∧ Board.undoMove b1 = some b2 ∧
      List.Perm b2.main.white b.main.white ∧ List.Perm b2.main.black b.main.black ∧
      b2.main.history = b.main.history ∧
      List.Perm b2.sandbox.white b.sandbox.white ∧
      List.Perm b2.sandbox.black b.sandbox.black ∧
      b2.sandbox.history = b.sandbox.history := by
  have hwfS : WF b.sandbox = true := by
    rw [WF_congr hw hb]
    exact hwf
  have hpS : p ∈ b.sandbox.white ++ b.sandbox.black := by
    rw [hw, hb]
    exact hp
  have hmS : m ∈ possibleMoves b.sandbox p := by
    rw [possibleMoves_congr hw hb]
    exact hm
  obtain ⟨m1, m2', hmk1, hund1, hpw1, hpb1, hh1⟩ := coreRoundTrip b.main p m hwf hp hm
  obtain ⟨s1, s2', hmk2, hund2, hpw2, hpb2, hh2⟩ := coreRoundTrip b.sandbox p m hwfS hpS hmS
  have hfc : fromCode b.sandbox m.code = some m := mirror_fromCode hwf hp hm hw hb
  refine ⟨⟨m1, s1⟩, ⟨m2', s2'⟩, ?_, ?_, hpw1, hpb1, hh1, hpw2, hpb2, hh2⟩
  · exact makeMoveObj_formula hsync hmk1 hfc hmk2
  · exact undoMove_formula hund1 hund2

/-- Witness for C1: the opening move e2e3 from the initial position, made
and then undone, restores the initial position. -/
theorem C1_makeUndoRoundTrip_witness :
    ∃ b1 b2, Board.makeMoveObj Board.initial moveE2E3 = some b1 ∧
      Board.undoMove b1 = some b2 ∧
      List.Perm b2.main.white Board.initial.main.white ∧
      List.Perm b2.main.black Board.initial.main.black ∧
      b2.main.history = Board.initial.main.history ∧
      List.Perm b2.sandbox.white Board.initial.sandbox.white ∧
      List.Perm b2.sandbox.black Board.initial.sandbox.black ∧
      b2.sandbox.history = Board.initial.sandbox.history :=
  C1_makeUndoRoundTrip Board.initial pawnE2 moveE2E3 (by decide) rfl rfl (by decide)
    (by decide) (by decide)

/-- C3: `sync_moves` recreates the board from the standard initial layout
and replays the whole external list whenever that list is no longer than the
local history or some history entry disagrees with the corresponding list
entry (part 1); otherwise it leaves the board as is and applies exactly the
moves beyond the current history length (part 2); for a board whose state is
reproduced by replaying its own history — any board driven through
`make_move` notations — the result is therefore a function of the external
list alone (part 3); and `sync_moves(['e2e4'])` after a local `d2d4` yields
a board with no piece on d4 and a (white) pawn on e4 (part 4). -/
theorem C3_syncMoves :
    (∀ (b : Board) (moves : List MoveCode),
       (moves.length ≤ b.main.history.length ∨
         ∃ (i : Nat) (hi : i < b.main.history.length) (hj : i < moves.length),
           Move.eqCode (b.main.history.get ⟨i, hi⟩) (moves.get ⟨i, hj⟩) = false) →
       Board.syncMoves b moves = applyAllN Board.initial moves) ∧
    (∀ (b : Board) (moves : List MoveCode),
       b.main.history.length < moves.length →
       (∀ (i : Nat) (hi : i < b.main.history.length) (hj : i < moves.length),
         Move.eqCode (b.main.history.get ⟨i, hi⟩) (moves.get ⟨i, hj⟩) = true) →
       Board.syncMoves b moves = applyAllN b (moves.drop b.main.history.length)) ∧
    (∀ (b b' : Board) (moves : List MoveCode), Reconstructible b →
       Board.syncMoves b moves = some b' → applyAllN Board.initial moves = some b') ∧
    (Board.syncMoves boardD2D4 [nE2E4] = some boardSyncE2E4 ∧
      boardAt boardSyncE2E4.main ⟨4, 4⟩ = none ∧
      boardAt boardSyncE2E4.main ⟨5, 4⟩ = some (setPos pawnE2 ⟨5, 4⟩)) := by
  refine ⟨?_, ?_, ?_, by decide, by decide, by decide⟩
  · intro b moves hcond
    have hrec : (decide (moves.length ≤ b.main.history.length) ||
        !histAgrees b.main.history moves) = true := by
      rcases hcond with h1 | ⟨i, hi, hj, hfe⟩
      · simp [h1]
      · have hnot : ¬ histAgrees b.main.history moves = true := by
          intro hall
          have hx := (histAgrees_iff _ _).mp hall i hi hj
          rw [hfe] at hx
          exact Bool.noConfusion hx
        have hF : histAgrees b.main.history moves = false := by
          cases hA : histAgrees b.main.history moves
          · rfl
          · exact absurd hA hnot
        simp [hF]
    simp only [Board.syncMoves]
    rw [if_pos hrec]
    rfl
  · intro b moves hlen hall
    have hagr : histAgrees b.main.history moves = true := (histAgrees_iff _ _).mpr hall
    have hrec : ¬ ((decide (moves.length ≤ b.main.history.length) ||
        !histAgrees b.main.history moves) = true) := by
      simp [hagr]
      omega
    simp only [Board.syncMoves]
    rw [if_neg hrec]
  · intro b b' moves hR hsm
    simp only [Board.syncMoves] at hsm
    by_cases hrec : (decide (moves.length ≤ b.main.history.length) ||
        !histAgrees b.main.history moves) = true
    · rw [if_pos hrec] at hsm
      exact hsm
    · rw [if_neg hrec] at hsm
      have hagr : histAgrees b.main.history moves = true := by
        rcases hA : histAgrees b.main.history moves
        · exact absurd (by simp [hA]) hrec
        · rfl
      have hlen : b.main.history.length < moves.length := by
        rcases Nat.lt_or_ge b.main.history.length moves.length with h | h
        · exact h
        · exact absurd (by simp [h]) hrec
      have htake := take_eq_map_code b.main.history moves (Nat.le_of_lt hlen) hagr
      have hsplit := List.take_append_drop b.main.history.length moves
      rw [← hsplit, applyAllN_append, htake]
      unfold Reconstructible at hR
      rw [hR]
      exact hsm

/-- C9: a pawn's `possible_moves()` contains the one-square forward move
only if the square ahead is empty; a diagonal move only if the diagonal
square holds an enemy piece; and the two-square move only if the pawn still
stands on its construction square, the square immediately ahead is empty,
and the destination square is empty. -/
theorem C9_pawnMoves (b : BoardCore) (p : Piece)
    (hk : p.kind = Kind.pawn) (hh : p.heading ≠ 0) :
    (mkMoveObj b p (p.pos + (⟨0, p.heading⟩ : Direction)) ∈ possibleMoves b p →
       boardAt b (p.pos + (⟨0, p.heading⟩ : Direction)) = none) ∧
    (∀ s : Int, s = 1 ∨ s = -1 →
       mkMoveObj b p (p.pos + (⟨s, p.heading⟩ : Direction)) ∈ possibleMoves b p →
       ∃ c, boardAt b (p.pos + (⟨s, p.heading⟩ : Direction)) = some c ∧
         c.player ≠ p.player) ∧
    (mkMoveObj b p (p.pos + (⟨0, 2 * p.heading⟩ : Direction)) ∈ possibleMoves b p →
       p.pos = p.startingPos ∧
       boardAt b (p.pos + (⟨0, p.heading⟩ : Direction)) = none ∧
       boardAt b (p.pos + (⟨0, 2 * p.heading⟩ : Direction)) = none) := by
  have hall : allDirs b p = pawnDirs b p := by
    unfold allDirs
    rw [hk]
  refine ⟨?_, ?_, ?_⟩
  · intro hmem
    obtain ⟨d', hd', hcheck, heq⟩ := mem_possibleMoves.mp hmem
    have hnp : p.pos + (⟨0, p.heading⟩ : Direction) = p.pos + d' :=
      congrArg Move.newPos heq
    have hd : d' = ⟨0, p.heading⟩ := (posAdd_cancel hnp).symm
    subst hd
    simp only [checkMoveTo, hk] at hcheck
    have hcol : (p.pos + (⟨0, p.heading⟩ : Direction)).col = p.pos.col := by
      show p.pos.col + 0 = p.pos.col
      omega
    by_cases hocc : (boardAt b (p.pos + (⟨0, p.heading⟩ : Direction))).isSome
    · rw [if_pos ⟨hcol, hocc⟩] at hcheck
      exact Bool.noConfusion hcheck
    · exact Option.not_isSome_iff_eq_none.mp hocc
  · intro s hs hmem
    obtain ⟨d', hd', hcheck, heq⟩ := mem_possibleMoves.mp hmem
    have hd : d' = ⟨s, p.heading⟩ := (posAdd_cancel (congrArg Move.newPos heq)).symm
    subst hd
    rw [hall] at hd'
    unfold pawnDirs at hd'
    simp only [List.mem_append] at hd'
    rcases hd' with (hfwd | hfil) | hdd
    · have hs0 : s = 0 := by
        simp only [List.mem_singleton, Direction.mk.injEq] at hfwd
        exact hfwd.1
      rcases hs with rfl | rfl <;> exact absurd hs0 (by omega)
    · have hpred := (List.mem_filter.mp hfil).2
      rcases hb2 : boardAt b (p.pos + (⟨s, p.heading⟩ : Direction)) with _ | c
      · rw [hb2] at hpred
        exact Bool.noConfusion hpred
      · rw [hb2] at hpred
        exact ⟨c, rfl, of_decide_eq_true hpred⟩
    · by_cases hcond : (p.pos = p.startingPos ∧
          boardAt b (p.pos + (⟨0, p.heading⟩ : Direction)) = none)
      · rw [if_pos hcond] at hdd
        have hs0 : s = 0 := by
          simp only [List.mem_singleton, Direction.mk.injEq] at hdd
          exact hdd.1
        rcases hs with rfl | rfl <;> exact absurd hs0 (by omega)
      · rw [if_neg hcond] at hdd
        exact absurd hdd (List.not_mem_nil _)
  · intro hmem
    obtain ⟨d', hd', hcheck, heq⟩ := mem_possibleMoves.mp hmem
    have hd : d' = ⟨0, 2 * p.heading⟩ := (posAdd_cancel (congrArg Move.newPos heq)).symm
    subst hd
    rw [hall] at hd'
    unfold pawnDirs at hd'
    simp only [List.mem_append] at hd'
    have hdest : boardAt b (p.pos + (⟨0, 2 * p.heading⟩ : Direction)) = none := by
      simp only [checkMoveTo, hk] at hcheck
      have hcol : (p.pos + (⟨0, 2 * p.heading⟩ : Direction)).col = p.pos.col := by
        show p.pos.col + 0 = p.pos.col
        omega
      by_cases hocc : (boardAt b (p.pos + (⟨0, 2 * p.heading⟩ : Direction))).isSome
      · rw [if_pos ⟨hcol, hocc⟩] at hcheck
        exact Bool.noConfusion hcheck
      · exact Option.not_isSome_iff_eq_none.mp hocc
    rcases hd' with (hfwd | hfil) | hdd
    · simp only [List.mem_singleton, Direction.mk.injEq] at hfwd
      exact absurd hfwd.2 (by intro h2; exact hh (by omega))
    · have hcol := (List.mem_filter.mp hfil).1
      have h01 : (0 : Int) = 1 ∨ (0 : Int) = -1 := by
        rcases List.mem_cons.mp hcol with h1 | h1
        · left
          exact congrArg Direction.col h1
        · rcases List.mem_cons.mp h1 with h2 | h2
          · right
            exact congrArg Direction.col h2
          · exact absurd h2 (List.not_mem_nil _)
      exact absurd h01 (by omega)
    · by_cases hcond : (p.pos = p.startingPos ∧
          boardAt b (p.pos + (⟨0, p.heading⟩ : Direction)) = none)
      · exact ⟨hcond.1, hcond.2, hdest⟩
      · rw [if_neg hcond] at hdd
        exact absurd hdd (List.not_mem_nil _)

/-- Witness for C9: the white pawn on e2 of the initial board may step to
e3, and indeed e3 is empty. -/
theorem C9_pawnMoves_witness :
    boardAt initialCore (pawnE2.pos + (⟨0, pawnE2.heading⟩ : Direction)) = none :=
  (C9_pawnMoves initialCore pawnE2 rfl (by decide)).1 (by decide)

/-- C10: `make_move` checks no turn ownership.  Part 1: for every board
passing the synchronization assertions, every 4/5-character notation whose
origin square holds a piece (of either colour, on both replicas) and whose
squares differ is executed and appended to the history — no hypothesis
relates the moving piece's colour to `Board.active`.  Part 2: likewise for a
`Move` object built from any piece of the board, of either colour.  Part 3:
concretely, the public interface accepts `e2e3` followed by `d2d3`, two
white moves in a row. -/
theorem C10_noTurnCheck :
    (∀ (b : Board) (n : MoveCode) (p0 q0 : Piece),
       checkSync b = true →
       ownersOK b.main = true → ownersOK b.sandbox = true →
       boardAt b.main n.oldPos = some p0 → boardAt b.sandbox n.oldPos = some q0 →
       n.oldPos ≠ n.newPos →
       ∃ b' m, Board.makeMoveN b n = some b' ∧ fromCode b.main n = some m ∧
         b'.main.history = b.main.history ++ [m]) ∧
    (∀ (b : Board) (p : Piece) (m : Move),
       checkSync b = true → WF b.main = true →
       b.sandbox.white = b.main.white → b.sandbox.black = b.main.black →
       p ∈ b.main.white ++ b.main.black → m ∈ possibleMoves b.main p →
       ∃ b', Board.makeMoveObj b m = some b' ∧
         b'.main.history = b.main.history ++ [m]) ∧
    (((Board.initial.makeMoveN nE2E3).bind
        (fun x => Board.makeMoveN x nD2D3)).isSome = true ∧
      boardTwoWhite.main.history.map Move.player = [Color.white, Color.white]) := by
  refine ⟨?_, ?_, by decide, by decide⟩
  · intro b n p0 q0 hsync how1 how2 hp0 hq0 hne
    obtain ⟨m, hm0⟩ : ∃ m, fromCode b.main n = some m := ⟨_, fromCode_some hp0⟩
    have hmc : m.code = n := fromCode_code hm0
    obtain ⟨main1, hmk1, hh1⟩ := makeMoveCore_fromCode_success how1 hne hm0
    obtain ⟨m2, hm2⟩ : ∃ m2, fromCode b.sandbox m.code = some m2 := by
      rw [hmc]
      exact ⟨_, fromCode_some hq0⟩
    have hm2' : fromCode b.sandbox n = some m2 := by
      rw [← hmc]
      exact hm2
    obtain ⟨sand1, hmk2, hh2⟩ := makeMoveCore_fromCode_success how2 hne hm2'
    exact ⟨⟨main1, sand1⟩, m, makeMoveN_formula hsync hm0 hmk1 hm2 hmk2, hm0, hh1⟩
  · intro b p m hsync hwf hw hb hp hm
    obtain ⟨m1, m2', hmk1, -, -, -, -⟩ := coreRoundTrip b.main p m hwf hp hm
    have hwfS : WF b.sandbox = true := by
      rw [WF_congr hw hb]
      exact hwf
    have hpS : p ∈ b.sandbox.white ++ b.sandbox.black := by
      rw [hw, hb]
      exact hp
    have hmS : m ∈ possibleMoves b.sandbox p := by
      rw [possibleMoves_congr hw hb]
      exact hm
    obtain ⟨s1, s2', hmk2, -, -, -, -⟩ := coreRoundTrip b.sandbox p m hwfS hpS hmS
    have hfc := mirror_fromCode hwf hp hm hw hb
    exact ⟨⟨m1, s1⟩, makeMoveObj_formula hsync hmk1 hfc hmk2, makeMoveCore_history hmk1⟩

/-- C5: calling `evaluate_complete` on a move sampled from a well-formed
primary board leaves the primary board unchanged up to permutation of each
player's piece list — its piece multisets (hence every piece's membership,
position, and owner) and its history are the same after the call as before.
(The captured and promoted pieces are transiently removed from the primary
lists and re-appended by the sandbox undo, so only the list order can
change.) -/
theorem C5_evalFrame (main sandbox : BoardCore) (p : Piece) (m : Move)
    (hwf : WF main = true) (hp : p ∈ main.white ++ main.black)
    (hm : m ∈ possibleMoves main p)
    {main' sand' : BoardCore}
    (h : evalCompleteStep main sandbox m = some (main', sand')) :
    List.Perm main'.white main.white ∧ List.Perm main'.black main.black ∧
      main'.history = main.history := by
  have hhist := (evalCompleteStep_inv h).1
  obtain ⟨d, -, hcheck, hmeq⟩ := mem_possibleMoves.mp hm
  obtain ⟨hdp, hofW, hofB⟩ := WF_parts hwf
  have henemy := (checkMoveTo_true hcheck).2
  have hcapm : m.captured = boardAt main (p.pos + d) := by
    rw [hmeq]
    rfl
  have hpromm : m.promotion =
      (if p.kind = Kind.pawn ∧ ((p.pos + d).row = 1 ∨ (p.pos + d).row = 8)
       then some (p, queenAt p.player p.pos) else none) := by
    rw [hmeq]
    rfl
  suffices hpm : List.Perm main'.white main.white ∧ List.Perm main'.black main.black by
    exact ⟨hpm.1, hpm.2, hhist⟩
  unfold evalCompleteStep at h
  split at h
  · exact Option.noConfusion h
  · next mainA heqA =>
    split at h
    · exact Option.noConfusion h
    · next mainB heqB =>
      split at h
      · exact Option.noConfusion h
      · next sandA heqSA =>
        simp only [] at h
        split at h
        · exact Option.noConfusion h
        · next mu hmu =>
          have hmu2 : m = mu := Option.some.inj ((List.getLast?_concat _).symm.trans hmu)
          subst hmu2
          split at h
          · exact Option.noConfusion h
          · next sandD heqSD =>
            split at h
            · exact Option.noConfusion h
            · next mainC heqC =>
              have hfst : (match m.captured with
                           | some c => join mainC c
                           | none => mainC) = main' :=
                congrArg Prod.fst (Option.some.inj h)
              clear h heqSA heqSD hmu hhist hm hcheck
              rcases hcap : boardAt main (p.pos + d) with _ | c
              · -- no capture: the captured-piece steps are identities
                rw [hcapm, hcap] at heqA hfst
                have hA : main = mainA :=
                  Option.some.inj (show (some main : Option BoardCore) = some mainA from heqA)
                subst hA
                have hC : mainC = main' := hfst
                subst hC
                by_cases hpr : (p.kind = Kind.pawn ∧ ((p.pos + d).row = 1 ∨ (p.pos + d).row = 8))
                · -- promotion: pawn out, queen in, then queen out, pawn in
                  rw [hpromm, if_pos hpr] at heqB heqC
                  have heqB2 : (match leave main p with
                                | none => none
                                | some bx => some (join bx (queenAt p.player p.pos))) =
                      some mainB := heqB
                  rcases hplp : p.player
                  · -- white pawn
                    have hpW : p ∈ main.white := mem_white_of_player hofB hp hplp
                    rw [leave_white hplp hpW] at heqB2
                    have hB : join { main with white := eraseFirst main.white p }
                        (queenAt p.player p.pos) = mainB := Option.some.inj heqB2
                    subst hB
                    have hqpl : (queenAt p.player p.pos).player = Color.white := hplp
                    have heqC2 : (match leave (join { main with white := eraseFirst main.white p }
                          (queenAt p.player p.pos)) (queenAt p.player p.pos) with
                        | none => none
                        | some bx => some (join bx p)) = some mainC := heqC
                    have hqmem : queenAt p.player p.pos ∈
                        (join { main with white := eraseFirst main.white p }
                          (queenAt p.player p.pos)).white := by
                      rw [join_white hqpl]
                      exact List.mem_append_right _ (List.mem_singleton.mpr rfl)
                    rw [leave_white hqpl hqmem] at heqC2
                    have hC2 := Option.some.inj heqC2
                    rw [← hC2]
                    constructor
                    · rw [join_white hplp]
                      simp only [join_white hqpl]
                      exact list_promo_perm p (queenAt p.player p.pos) hpW
                    · rw [join_white hplp]
                      simp only [join_white hqpl]
                      exact List.Perm.refl _
                  · -- black pawn
                    have hpB : p ∈ main.black := mem_black_of_player hofW hp hplp
                    rw [leave_black hplp hpB] at heqB2
                    have hB : join { main with black := eraseFirst main.black p }
                        (queenAt p.player p.pos) = mainB := Option.some.inj heqB2
                    subst hB
                    have hqpl : (queenAt p.player p.pos).player = Color.black := hplp
                    have heqC2 : (match leave (join { main with black := eraseFirst main.black p }
                          (queenAt p.player p.pos)) (queenAt p.player p.pos) with
                        | none => none
                        | some bx => some (join bx p)) = some mainC := heqC
                    have hqmem : queenAt p.player p.pos ∈
                        (join { main with black := eraseFirst main.black p }
                          (queenAt p.player p.pos)).black := by
                      rw [join_black hqpl]
                      exact List.mem_append_right _ (List.mem_singleton.mpr rfl)
                    rw [leave_black hqpl hqmem] at heqC2
                    have hC2 := Option.some.inj heqC2
                    rw [← hC2]
                    constructor
                    · rw [join_black hplp]
                      simp only [join_black hqpl]
                      exact List.Perm.refl _
                    · rw [join_black hplp]
                      simp only [join_black hqpl]
                      exact list_promo_perm p (queenAt p.player p.pos) hpB
                · -- no promotion: everything is the identity
                  rw [hpromm, if_neg hpr] at heqB heqC
                  have hB : main = mainB :=
                    Option.some.inj (show (some main : Option BoardCore) = some mainB from heqB)
                  subst hB
                  have hC2 : main = mainC :=
                    Option.some.inj (show (some main : Option BoardCore) = some mainC from heqC)
                  rw [← hC2]
                  exact ⟨List.Perm.refl _, List.Perm.refl _⟩
              · -- capture: the captured enemy piece leaves and re-joins
                rw [hcapm, hcap] at heqA hfst
                have heqA2 : leave main c = some mainA := heqA
                have hfst2 : join mainC c = main' := hfst
                have hcne : c.player ≠ p.player := henemy c hcap
                have hcmem : c ∈ main.white ++ main.black := (boardAt_mem hcap).1
                rcases hplp : p.player
                · -- white mover, black captured piece
                  have hcb : c.player = Color.black := by
                    rw [hplp] at hcne
                    exact Color.eq_black_of_ne_white hcne
                  have hcB : c ∈ main.black := mem_black_of_player hofW hcmem hcb
                  rw [leave_black hcb hcB] at heqA2
                  have hA : mainA = { main with black := eraseFirst main.black c } :=
                    (Option.some.inj heqA2).symm
                  subst hA
                  by_cases hpr : (p.kind = Kind.pawn ∧
                      ((p.pos + d).row = 1 ∨ (p.pos + d).row = 8))
                  · rw [hpromm, if_pos hpr] at heqB heqC
                    have heqB2 : (match leave { main with black := eraseFirst main.black c } p with
                                  | none => none
                                  | some bx => some (join bx (queenAt p.player p.pos))) =
                        some mainB := heqB
                    have hpW : p ∈ main.white := mem_white_of_player hofB hp hplp
                    have hpWA : p ∈ ({ main with black := eraseFirst main.black c } :
                        BoardCore).white := hpW
                    rw [leave_white hplp hpWA] at heqB2
                    have hB := Option.some.inj heqB2
                    rw [← hB] at heqC
                    have hqpl : (queenAt p.player p.pos).player = Color.white := hplp
                    have heqC2 : (match leave (join { { main with black := eraseFirst main.black c }
                            with white := eraseFirst ({ main with
                              black := eraseFirst main.black c } : BoardCore).white p }
                          (queenAt p.player p.pos)) (queenAt p.player p.pos) with
                        | none => none
                        | some bx => some (join bx p)) = some mainC := heqC
                    have hqmem : queenAt p.player p.pos ∈
                        (join { { main with black := eraseFirst main.black c }
                            with white := eraseFirst ({ main with
                              black := eraseFirst main.black c } : BoardCore).white p }
                          (queenAt p.player p.pos)).white := by
                      rw [join_white hqpl]
                      exact List.mem_append_right _ (List.mem_singleton.mpr rfl)
                    rw [leave_white hqpl hqmem] at heqC2
                    have hC2 := Option.some.inj heqC2
                    rw [← hfst2, ← hC2]
                    constructor
                    · rw [join_black hcb, join_white hplp]
                      simp only [join_white hqpl]
                      exact list_promo_perm p (queenAt p.player p.pos) hpW
                    · rw [join_black hcb, join_white hplp]
                      simp only [join_white hqpl]
                      exact eraseFirst_append_self_perm hcB
                  · rw [hpromm, if_neg hpr] at heqB heqC
                    have hB : ({ main with black := eraseFirst main.black c } : BoardCore) =
                        mainB :=
                      Option.some.inj (show (some { main with
                        black := eraseFirst main.black c } : Option BoardCore) =
                          some mainB from heqB)
                    rw [← hB] at heqC
                    have hC2 : ({ main with black := eraseFirst main.black c } : BoardCore) =
                        mainC :=
                      Option.some.inj (show (some { main with
                        black := eraseFirst main.black c } : Option BoardCore) =
                          some mainC from heqC)
                    rw [← hfst2, ← hC2]
                    constructor
                    · rw [join_black hcb]
                    · rw [join_black hcb]
                      exact eraseFirst_append_self_perm hcB
                · -- black mover, white captured piece
                  have hcw : c.player = Color.white := by
                    cases hcpl : c.player
                    · rfl
                    · rw [hplp, hcpl] at hcne
                      exact absurd rfl hcne
                  have hcW : c ∈ main.white := mem_white_of_player hofB hcmem hcw
                  rw [leave_white hcw hcW] at heqA2
                  have hA : mainA = { main with white := eraseFirst main.white c } :=
                    (Option.some.inj heqA2).symm
                  subst hA
                  by_cases hpr : (p.kind = Kind.pawn ∧
                      ((p.pos + d).row = 1 ∨ (p.pos + d).row = 8))
                  · rw [hpromm, if_pos hpr] at heqB heqC
                    have heqB2 : (match leave { main with white := eraseFirst main.white c } p with
                                  | none => none
                                  | some bx => some (join bx (queenAt p.player p.pos))) =
                        some mainB := heqB
                    have hpB : p ∈ main.black := mem_black_of_player hofW hp hplp
                    have hpBA : p ∈ ({ main with white := eraseFirst main.white c } :
                        BoardCore).black := hpB
                    rw [leave_black hplp hpBA] at heqB2
                    have hB := Option.some.inj heqB2
                    rw [← hB] at heqC
                    have hqpl : (queenAt p.player p.pos).player = Color.black := hplp
                    have heqC2 : (match leave (join { { main with white := eraseFirst main.white c }
                            with black := eraseFirst ({ main with
                              white := eraseFirst main.white c } : BoardCore).black p }
                          (queenAt p.player p.pos)) (queenAt p.player p.pos) with
                        | none => none
                        | some bx => some (join bx p)) = some mainC := heqC
                    have hqmem : queenAt p.player p.pos ∈
                        (join { { main with white := eraseFirst main.white c }
                            with black := eraseFirst ({ main with
                              white := eraseFirst main.white c } : BoardCore).black p }
                          (queenAt p.player p.pos)).black := by
                      rw [join_black hqpl]
                      exact List.mem_append_right _ (List.mem_singleton.mpr rfl)
                    rw [leave_black hqpl hqmem] at heqC2
                    have hC2 := Option.some.inj heqC2
                    rw [← hfst2, ← hC2]
                    constructor
                    · rw [join_white hcw, join_black hplp]
                      simp only [join_black hqpl]
                      exact eraseFirst_append_self_perm hcW
                    · rw [join_white hcw, join_black hplp]
                      simp only [join_black hqpl]
                      exact list_promo_perm p (queenAt p.player p.pos) hpB
                  · rw [hpromm, if_neg hpr] at heqB heqC
                    have hB : ({ main with white := eraseFirst main.white c } : BoardCore) =
                        mainB :=
                      Option.some.inj (show (some { main with
                        white := eraseFirst main.white c } : Option BoardCore) =
                          some mainB from heqB)
                    rw [← hB] at heqC
                    have hC2 : ({ main with white := eraseFirst main.white c } : BoardCore) =
                        mainC :=
                      Option.some.inj (show (some { main with
                        white := eraseFirst main.white c } : Option BoardCore) =
                          some mainC from heqC)
                    rw [← hfst2, ← hC2]
                    constructor
                    · rw [join_white hcw]
                      exact eraseFirst_append_self_perm hcW
                    · rw [join_white hcw]

/-- Witness for C5: on the two-piece board the capturing move Nxg5 (via the
shared-sandbox aliasing) makes and undoes the move, and the primary board
comes back exactly — here even with its original list order. -/
theorem C5_evalFrame_witness :
    List.Perm tinyCore.white tinyCore.white ∧ List.Perm tinyCore.black tinyCore.black ∧
      tinyCore.history = tinyCore.history :=
  C5_evalFrame tinyCore tinyCore knightT tinyMove (by decide) (by decide) (by decide)
    (show evalCompleteStep tinyCore tinyCore tinyMove = some (tinyCore, tinyCore) by decide)

end OgEngine
